import Mathlib

set_option linter.unusedVariables false

/- Shallow embedding of the mongo-utility repository: the enhanced import
   utility (export.js in this packaging: castToType and friends,
   validateDocument, importCollectionData) and the enhanced export utility
   (analyzeFieldTypes, getValueType, the SQL generators).  JavaScript runtime
   values are modelled as a tree JsValue; JS numbers are modelled as integers,
   which covers every value appearing in the verified claims. -/

/-- The single-quote character, used to build the messages and SQL literals of
the source without writing a quote character inside a Lean string literal. -/
def sqS : String := String.singleton (Char.ofNat 39)

/-- The backtick character used by the SQL generators of the source. -/
def btS : String := String.singleton (Char.ofNat 96)

/-- The closed enumeration of type tags returned by `getValueType` in the
source.  The JS implementation returns the corresponding strings "null",
"undefined", "array", "date", "objectId", "string", "number", "boolean",
"object"; the enumeration is in bijection with them. -/
inductive TypeTag where
  | null
  | undefined
  | string
  | number
  | boolean
  | date
  | objectId
  | array
  | object
  deriving DecidableEq, Repr

mutual
/-- Decoded JavaScript document values.  `date` carries epoch milliseconds
(the content of a JS `Date`), `objectId` carries the 24-hex-character id
string (the content of a BSON `ObjectId`). -/
inductive JsValue where
  | null
  | undef
  | str (s : String)
  | num (n : Int)
  | boolean (b : Bool)
  | date (ms : Int)
  | objectId (hex : String)
  | arr (items : JsArr)
  | obj (fields : JsObj)
inductive JsArr where
  | nil
  | cons (v : JsValue) (rest : JsArr)
inductive JsObj where
  | nil
  | cons (name : String) (v : JsValue) (rest : JsObj)
end

mutual
def beqVal : JsValue → JsValue → Bool
  | .null, .null => true
  | .undef, .undef => true
  | .str a, .str b => a == b
  | .num a, .num b => a == b
  | .boolean a, .boolean b => a == b
  | .date a, .date b => a == b
  | .objectId a, .objectId b => a == b
  | .arr a, .arr b => beqArr a b
  | .obj a, .obj b => beqObj a b
  | _, _ => false
def beqArr : JsArr → JsArr → Bool
  | .nil, .nil => true
  | .cons v r, .cons w s => beqVal v w && beqArr r s
  | _, _ => false
def beqObj : JsObj → JsObj → Bool
  | .nil, .nil => true
  | .cons n v r, .cons m w s => n == m && beqVal v w && beqObj r s
  | _, _ => false
end

instance : BEq JsValue := ⟨beqVal⟩

instance : BEq JsArr := ⟨beqArr⟩

instance : BEq JsObj := ⟨beqObj⟩

/-- `o.hasOwnProperty(k)` on a plain object. -/
def JsObj.hasField : JsObj → String → Bool
  | .nil, _ => false
  | .cons n _ r, k => n == k || r.hasField k

/-- Member read `o[k]`; JavaScript yields `undefined` for a missing key. -/
def JsObj.getF : JsObj → String → JsValue
  | .nil, _ => .undef
  | .cons n v r, k => if n == k then v else r.getF k

/-- Member write `o[k] = v`: the existing key is updated in place (keys of a
real JS object are unique), a missing key is appended. -/
def JsObj.setF : JsObj → String → JsValue → JsObj
  | .nil, k, v => .cons k v .nil
  | .cons n w r, k, v => if n == k then .cons n v r else .cons n w (r.setF k v)

/-- `Object.keys(o)` in insertion order. -/
def JsObj.keys : JsObj → List String
  | .nil => []
  | .cons n _ r => n :: r.keys

/-- `Object.entries(o)` in insertion order. -/
def JsObj.entries : JsObj → List (String × JsValue)
  | .nil => []
  | .cons n v r => (n, v) :: r.entries

def JsArr.toList : JsArr → List JsValue
  | .nil => []
  | .cons v r => v :: r.toList

def JsArr.ofList : List JsValue → JsArr
  | [] => .nil
  | v :: r => .cons v (JsArr.ofList r)

def JsArr.length (a : JsArr) : Nat := a.toList.length

/-- `typeof value` for the values of the model: null, arrays, dates, ObjectId
values and plain objects all report "object". -/
def typeofStr : JsValue → String
  | .null => "object"
  | .undef => "undefined"
  | .str _ => "string"
  | .num _ => "number"
  | .boolean _ => "boolean"
  | .date _ => "object"
  | .objectId _ => "object"
  | .arr _ => "object"
  | .obj _ => "object"

/-- `getValueType` from the source (it appears in both utilities; the two
copies differ only in a null-guard on `constructor` that cannot fire on
decoded document values).  The source checks in order: `value === null`,
`value === undefined`, `Array.isArray(value)`, `value instanceof Date`, the
ObjectId constructor-name test, and finally `typeof value`; because the model
constructors are disjoint, that ordered chain is exactly this match (the
`typeof` fallback maps str, num and boolean to their primitive tags and a
plain object to `object`). -/
def getValueType (v : JsValue) : TypeTag :=
  match v with
  | .null => .null
  | .undef => .undefined
  | .arr _ => .array
  | .date _ => .date
  | .objectId _ => .objectId
  | .str _ => .string
  | .num _ => .number
  | .boolean _ => .boolean
  | .obj _ => .object

/-- Two-digit zero padding. -/
def pad2 (n : Nat) : String := if n < 10 then "0" ++ toString n else toString n

/-- Three-digit zero padding. -/
def pad3 (n : Nat) : String :=
  if n < 10 then "00" ++ toString n
  else if n < 100 then "0" ++ toString n
  else toString n

/-- Four-digit zero padding. -/
def pad4 (n : Nat) : String :=
  if n < 10 then "000" ++ toString n
  else if n < 100 then "00" ++ toString n
  else if n < 1000 then "0" ++ toString n
  else toString n

/-- Six-digit zero padding (expanded ISO years). -/
def pad6 (n : Nat) : String :=
  if n < 100000 then "0" ++ pad4 (n % 100000) ++ "" else toString n

/-- Convert a count of days since 1970-01-01 to a proleptic-Gregorian civil
(year, month, day) triple; the standard era-based conversion used by date
libraries. -/
def civilFromDays (z0 : Int) : Int × Nat × Nat :=
  let z := z0 + 719468
  let era : Int := Int.ediv z 146097
  let doe : Nat := (z - era * 146097).toNat
  let yoe : Nat := (doe - doe / 1460 + doe / 36524 - doe / 146096) / 365
  let doy : Nat := doe - (365 * yoe + yoe / 4 - yoe / 100)
  let mp : Nat := (5 * doy + 2) / 153
  let d : Nat := doy - (153 * mp + 2) / 5 + 1
  let m : Nat := if mp < 10 then mp + 3 else mp - 9
  (era * 400 + yoe + (if m <= 2 then 1 else 0), m, d)

/-- Convert a proleptic-Gregorian civil date to days since 1970-01-01. -/
def daysFromCivil (y0 : Int) (m : Nat) (d : Nat) : Int :=
  let y : Int := if m <= 2 then y0 - 1 else y0
  let era : Int := Int.ediv y 400
  let yoe : Nat := (y - era * 400).toNat
  let mp : Nat := if m > 2 then m - 3 else m + 9
  let doy : Nat := (153 * mp + 2) / 5 + d - 1
  let doe : Nat := yoe * 365 + yoe / 4 - yoe / 100 + doy
  era * 146097 + (doe : Int) - 719468

/-- Year rendering of `Date.prototype.toISOString` (four digits for
0..9999, six-digit expanded form with sign otherwise). -/
def isoYear (y : Int) : String :=
  if y < 0 then "-" ++ pad6 (-y).toNat
  else if y > 9999 then "+" ++ pad6 y.toNat
  else pad4 y.toNat

/-- `Date.prototype.toISOString`: epoch milliseconds rendered as
YYYY-MM-DDTHH:MM:SS.sssZ in UTC. -/
def dateToISO (ms : Int) : String :=
  let day : Int := Int.ediv ms 86400000
  let rem : Nat := (ms - day * 86400000).toNat
  let c := civilFromDays day
  let hh := rem / 3600000
  let mi := rem % 3600000 / 60000
  let ss := rem % 60000 / 1000
  let mmm := rem % 1000
  isoYear c.1 ++ "-" ++ pad2 c.2.1 ++ "-" ++ pad2 c.2.2 ++ "T" ++
    pad2 hh ++ ":" ++ pad2 mi ++ ":" ++ pad2 ss ++ "." ++ pad3 mmm ++ "Z"

/- The embedding implements the string inspections it needs (trim, lower,
   split, replace, digit parsing) over the character list of the string, so
   that every closed theorem evaluates inside the kernel. -/

/-- ASCII whitespace as trimmed by `Number` and skipped by `JSON.parse`. -/
def isWsChar (c : Char) : Bool :=
  c = ' ' || c.toNat = 9 || c.toNat = 10 || c.toNat = 13

/-- `String.prototype.trim` over the character list. -/
def trimChars (cs : List Char) : List Char :=
  ((cs.dropWhile isWsChar).reverse.dropWhile isWsChar).reverse

/-- ASCII lowercasing, as `toLowerCase` acts on the strings of the model. -/
def charToLower (c : Char) : Char :=
  if 65 ≤ c.toNat ∧ c.toNat ≤ 90 then Char.ofNat (c.toNat + 32) else c

/-- `s.toLowerCase()`. -/
def strLower (s : String) : String :=
  String.mk (s.data.map charToLower)

/-- Split a character list on a separator character (every occurrence). -/
def splitOnChar (sep : Char) : List Char → List (List Char)
  | [] => [[]]
  | c :: r =>
    let rest := splitOnChar sep r
    if c = sep then [] :: rest
    else
      match rest with
      | h :: t => (c :: h) :: t
      | [] => [[c]]

/-- `s.split(sep)` for a one-character separator. -/
def strSplitOnChar (sep : Char) (s : String) : List String :=
  (splitOnChar sep s.data).map String.mk

/-- Global replacement of a pattern, the semantics of
`s.replace(/pat/g, rep)`; the fuel is the list length, consumed at least one
character per step. -/
def replaceAllAux : Nat → List Char → List Char → List Char → List Char
  | 0, _, _, cs => cs
  | fuel + 1, pat, rep, cs =>
    match cs with
    | [] => []
    | c :: r =>
      if !pat.isEmpty && pat.isPrefixOf cs then
        rep ++ replaceAllAux fuel pat rep (cs.drop pat.length)
      else c :: replaceAllAux fuel pat rep r

/-- `s.replace(/pat/g, rep)` for a literal pattern. -/
def strReplace (s pat rep : String) : String :=
  String.mk (replaceAllAux s.data.length pat.data rep.data s.data)

/-- Decimal digits to a natural number. -/
def digitsToNat (s : String) : Nat :=
  s.data.foldl (fun acc c => acc * 10 + (c.toNat - 48)) 0

/-- `Number(s)` for a string, restricted to the integer forms representable in
the model: surrounding whitespace is trimmed, the empty string is 0, an
optional sign followed by decimal digits parses as an integer, anything else
is NaN (`none`).  Fractional, exponent, hex and Infinity inputs are outside
the integer value model and report `none`. -/
def strToNumber (s : String) : Option Int :=
  let t := trimChars s.data
  if t.isEmpty then some 0
  else
    let sign : Int := if t.head? = some '-' then -1 else 1
    let digits := if t.head? = some '-' ∨ t.head? = some '+' then t.drop 1 else t
    if !digits.isEmpty && digits.all Char.isDigit then
      some (sign * (digitsToNat (String.mk digits) : Int))
    else none

/-- Parse a fixed-width decimal field. -/
def parseNatLen (s : String) (len : Nat) : Option Nat :=
  if s.data.length = len && s.data.all Char.isDigit then some (digitsToNat s) else none

/-- The Date Time String Format accepted by `new Date(string)` as required by
ECMA-262 (the portable core of JS date parsing): YYYY, YYYY-MM or YYYY-MM-DD,
optionally followed by THH:MM, seconds, milliseconds and a trailing Z; the
result is epoch milliseconds and `none` models an invalid date (NaN).
Date-only and Z forms are UTC; the model also reads the no-offset form as
UTC. -/
def jsDateParse (s : String) : Option Int :=
  let parts := strSplitOnChar 'T' s
  let parseDay : String → Option Int := fun ds =>
    match strSplitOnChar '-' ds with
    | [y] => do
      let yn ← parseNatLen y 4
      pure (daysFromCivil yn 1 1)
    | [y, mo] => do
      let yn ← parseNatLen y 4
      let mn ← parseNatLen mo 2
      if 1 ≤ mn ∧ mn ≤ 12 then pure (daysFromCivil yn mn 1) else none
    | [y, mo, d] => do
      let yn ← parseNatLen y 4
      let mn ← parseNatLen mo 2
      let dn ← parseNatLen d 2
      if 1 ≤ mn ∧ mn ≤ 12 ∧ 1 ≤ dn ∧ dn ≤ 31 then
        pure (daysFromCivil yn mn dn)
      else none
    | _ => none
  let parseTime : String → Option Nat := fun ts0 =>
    let ts := if ts0.data.getLast? = some 'Z' then String.mk ts0.data.dropLast else ts0
    match strSplitOnChar ':' ts with
    | [h, mi] => do
      let hn ← parseNatLen h 2
      let mn ← parseNatLen mi 2
      if hn ≤ 23 ∧ mn ≤ 59 then pure (hn * 3600000 + mn * 60000) else none
    | [h, mi, se] => do
      let hn ← parseNatLen h 2
      let mn ← parseNatLen mi 2
      let sn ← match strSplitOnChar '.' se with
        | [ss] => do
          let s2 ← parseNatLen ss 2
          if s2 ≤ 59 then pure (s2 * 1000) else none
        | [ss, ms] => do
          let s2 ← parseNatLen ss 2
          let m3 ← parseNatLen ms 3
          if s2 ≤ 59 then pure (s2 * 1000 + m3) else none
        | _ => none
      if hn ≤ 23 ∧ mn ≤ 59 then pure (hn * 3600000 + mn * 60000 + sn) else none
    | _ => none
  match parts with
  | [ds] => do
    let day ← parseDay ds
    pure (day * 86400000)
  | [ds, ts] => do
    let day ← parseDay ds
    let t ← parseTime ts
    pure (day * 86400000 + (t : Int))
  | _ => none

/-- The double-quote character. -/
def dqS : String := String.singleton (Char.ofNat 34)

/-- Lowercase hex digit. -/
def hexChar (n : Nat) : Char :=
  if n < 10 then Char.ofNat (48 + n) else Char.ofNat (87 + n)

/-- One character in a JSON string literal as emitted by `JSON.stringify`. -/
def jsonEscapeChar (c : Char) : String :=
  if c = Char.ofNat 34 then "\\" ++ dqS
  else if c = Char.ofNat 92 then "\\\\"
  else if c = Char.ofNat 10 then "\\n"
  else if c = Char.ofNat 13 then "\\r"
  else if c = Char.ofNat 9 then "\\t"
  else if c = Char.ofNat 8 then "\\b"
  else if c = Char.ofNat 12 then "\\f"
  else if c.toNat < 32 then
    "\\u00" ++ String.singleton (hexChar (c.toNat / 16)) ++
      String.singleton (hexChar (c.toNat % 16))
  else String.singleton c

/-- JSON string quoting as produced by `JSON.stringify`. -/
def jsonQuote (s : String) : String :=
  dqS ++ s.data.foldl (fun acc c => acc ++ jsonEscapeChar c) "" ++ dqS

mutual
/-- `JSON.stringify` of a value in serialization position; `none` models the
omission of `undefined` (dropped as an object member, rendered as null as an
array element).  A `Date` serializes through `toJSON` as its ISO string and
an `ObjectId` as its hex string. -/
def stringifyVal : JsValue → Option String
  | .null => some "null"
  | .undef => none
  | .str s => some (jsonQuote s)
  | .num n => some (toString n)
  | .boolean b => some (if b then "true" else "false")
  | .date ms => some (jsonQuote (dateToISO ms))
  | .objectId h => some (jsonQuote h)
  | .arr a => some ("[" ++ String.intercalate "," (stringifyArr a) ++ "]")
  | .obj f => some ("\x7b" ++ String.intercalate "," (stringifyObj f) ++ "\x7d")
def stringifyArr : JsArr → List String
  | .nil => []
  | .cons v r => ((stringifyVal v).getD "null") :: stringifyArr r
def stringifyObj : JsObj → List String
  | .nil => []
  | .cons n v r =>
    match stringifyVal v with
    | some sv => (jsonQuote n ++ ":" ++ sv) :: stringifyObj r
    | none => stringifyObj r
end

/-- `JSON.stringify` at the call sites of the source, which only ever pass an
array or a plain object (so the `undefined` top-level case is unreachable). -/
def jsonStringify (v : JsValue) : String := (stringifyVal v).getD "null"

mutual
/-- The document copy `JSON.parse(JSON.stringify(doc))` taken by
`validateDocument`, expressed as the structural transformation the JSON round
trip performs: object members bound to `undefined` are dropped, `undefined`
array elements decode as `null`, a `Date` decodes as its ISO string, an
`ObjectId` decodes as its hex string, everything else copies unchanged. -/
def jsonRoundTrip : JsValue → JsValue
  | .null => .null
  | .undef => .undef
  | .str s => .str s
  | .num n => .num n
  | .boolean b => .boolean b
  | .date ms => .str (dateToISO ms)
  | .objectId h => .str h
  | .arr a => .arr (roundTripArr a)
  | .obj f => .obj (roundTripObj f)
def roundTripArr : JsArr → JsArr
  | .nil => .nil
  | .cons .undef r => .cons .null (roundTripArr r)
  | .cons v r => .cons (jsonRoundTrip v) (roundTripArr r)
def roundTripObj : JsObj → JsObj
  | .nil => .nil
  | .cons _ .undef r => roundTripObj r
  | .cons n v r => .cons n (jsonRoundTrip v) (roundTripObj r)
end

/-- Skip JSON whitespace. -/
def skipWs : List Char → List Char
  | [] => []
  | c :: r =>
    if c = ' ' ∨ c.toNat = 9 ∨ c.toNat = 10 ∨ c.toNat = 13 then skipWs r else c :: r

/-- Parse the remainder of a JSON string literal (after the opening quote). -/
def parseJsonString : Nat → List Char → Option (String × List Char)
  | 0, _ => none
  | _ + 1, [] => none
  | fuel + 1, c :: r =>
    if c.toNat = 34 then some ("", r)
    else if c.toNat = 92 then
      match r with
      | [] => none
      | e :: r2 =>
        let esc : Option (String × List Char) :=
          if e.toNat = 34 then some (dqS, r2)
          else if e.toNat = 92 then some ("\\", r2)
          else if e = '/' then some ("/", r2)
          else if e = 'n' then some ("\n", r2)
          else if e = 't' then some ("\t", r2)
          else if e = 'r' then some ("\r", r2)
          else if e = 'b' then some (String.singleton (Char.ofNat 8), r2)
          else if e = 'f' then some (String.singleton (Char.ofNat 12), r2)
          else if e = 'u' then
            match r2 with
            | h1 :: h2 :: h3 :: h4 :: r3 =>
              let hv : Char → Option Nat := fun h =>
                if h.isDigit then some (h.toNat - 48)
                else if 97 ≤ h.toNat ∧ h.toNat ≤ 102 then some (h.toNat - 87)
                else if 65 ≤ h.toNat ∧ h.toNat ≤ 70 then some (h.toNat - 55)
                else none
              match hv h1, hv h2, hv h3, hv h4 with
              | some a, some b, some cc, some d =>
                some (String.singleton (Char.ofNat (a * 4096 + b * 256 + cc * 16 + d)), r3)
              | _, _, _, _ => none
            | _ => none
          else none
        match esc with
        | some (s1, r2b) =>
          match parseJsonString fuel r2b with
          | some (rest, r3) => some (s1 ++ rest, r3)
          | none => none
        | none => none
    else
      match parseJsonString fuel r with
      | some (rest, r3) => some (String.singleton c ++ rest, r3)
      | none => none

/-- Parse a JSON number (integer subset of the value model: a fractional or
exponent form fails the whole parse, as such values are not representable). -/
def parseJsonNumber (cs : List Char) : Option (Int × List Char) :=
  let (neg, cs1) :=
    match cs with
    | c :: r => if c = '-' then (true, r) else (false, cs)
    | [] => (false, cs)
  let digits := cs1.takeWhile Char.isDigit
  let rest := cs1.dropWhile Char.isDigit
  if digits.isEmpty then none
  else
    let ok : Bool :=
      match rest with
      | c :: _ => !(c = '.' ∨ c = 'e' ∨ c = 'E')
      | [] => true
    if ok then
      let n : Int := digitsToNat (String.mk digits)
      some (if neg then -n else n, rest)
    else none

mutual
/-- Fueled recursive-descent JSON value parser. -/
def parseJsonVal : Nat → List Char → Option (JsValue × List Char)
  | 0, _ => none
  | fuel + 1, cs0 =>
    let cs := skipWs cs0
    match cs with
    | [] => none
    | c :: r =>
      if c.toNat = 34 then
        match parseJsonString (r.length + 1) r with
        | some (s, r2) => some (.str s, r2)
        | none => none
      else if c = '[' then
        let r1 := skipWs r
        match r1 with
        | c2 :: r2 =>
          if c2 = ']' then some (.arr .nil, r2)
          else
            match parseJsonItems fuel r1 with
            | some (items, r3) => some (.arr items, r3)
            | none => none
        | [] => none
      else if c.toNat = 123 then
        let r1 := skipWs r
        match r1 with
        | c2 :: r2 =>
          if c2.toNat = 125 then some (.obj .nil, r2)
          else
            match parseJsonMembers fuel r1 with
            | some (fields, r3) => some (.obj fields, r3)
            | none => none
        | [] => none
      else if cs.take 4 = "null".toList then some (.null, cs.drop 4)
      else if cs.take 4 = "true".toList then some (.boolean true, cs.drop 4)
      else if cs.take 5 = "false".toList then some (.boolean false, cs.drop 5)
      else
        match parseJsonNumber cs with
        | some (n, r2) => some (.num n, r2)
        | none => none
/-- Comma-separated array items. -/
def parseJsonItems : Nat → List Char → Option (JsArr × List Char)
  | 0, _ => none
  | fuel + 1, cs =>
    match parseJsonVal fuel cs with
    | some (v, r1) =>
      match skipWs r1 with
      | ',' :: r2 =>
        match parseJsonItems fuel r2 with
        | some (rest, r3) => some (.cons v rest, r3)
        | none => none
      | ']' :: r2 => some (.cons v .nil, r2)
      | _ => none
    | none => none
/-- Comma-separated object members. -/
def parseJsonMembers : Nat → List Char → Option (JsObj × List Char)
  | 0, _ => none
  | fuel + 1, cs =>
    match skipWs cs with
    | c :: r =>
      if c.toNat = 34 then
        match parseJsonString (r.length + 1) r with
        | some (k, r1) =>
          match skipWs r1 with
          | ':' :: r2 =>
            match parseJsonVal fuel r2 with
            | some (v, r3) =>
              match skipWs r3 with
              | ',' :: r4 =>
                match parseJsonMembers fuel r4 with
                | some (rest, r5) => some (.cons k v rest, r5)
                | none => none
              | c5 :: r4 =>
                if c5.toNat = 125 then some (.cons k v .nil, r4) else none
              | [] => none
            | none => none
          | _ => none
        | none => none
      else none
    | [] => none
end

/-- `JSON.parse` over the integer-number value model; `none` models a thrown
SyntaxError (which the string branches of `castToArray` and `castToObject`
catch). -/
def jsonParse (s : String) : Option JsValue :=
  let cs := s.toList
  match parseJsonVal (2 * cs.length + 2) cs with
  | some (v, rest) => if (skipWs rest).isEmpty then some v else none
  | none => none

/-- The JS string for each type tag (what `getValueType` returns in the
source, used in the validation messages). -/
def tagStr : TypeTag → String
  | .null => "null"
  | .undefined => "undefined"
  | .string => "string"
  | .number => "number"
  | .boolean => "boolean"
  | .date => "date"
  | .objectId => "objectId"
  | .array => "array"
  | .object => "object"

/-- `castToString` (the source checks in order: string, number or boolean,
Date, ObjectId, generic object via `JSON.stringify`, then the `String(value)`
fallback).  Total: it never throws. -/
def castToString (v : JsValue) : JsValue :=
  match v with
  | .str s => .str s
  | .num n => .str (toString n)
  | .boolean b => .str (if b then "true" else "false")
  | .date ms => .str (dateToISO ms)
  | .objectId h => .str h
  | .null => .str (jsonStringify .null)
  | .arr a => .str (jsonStringify (.arr a))
  | .obj f => .str (jsonStringify (.obj f))
  | .undef => .str "undefined"

/-- `castToNumber`: numbers pass, strings parse via `Number` (throwing on
NaN), booleans map to 1/0, dates map to `getTime()`, everything else
throws. -/
def castToNumber (v : JsValue) : Except String JsValue :=
  match v with
  | .num n => .ok (.num n)
  | .str s =>
    match strToNumber s with
    | some n => .ok (.num n)
    | none => .error ("Cannot convert " ++ sqS ++ s ++ sqS ++ " to number")
  | .boolean b => .ok (.num (if b then 1 else 0))
  | .date ms => .ok (.num ms)
  | w => .error ("Cannot convert " ++ typeofStr w ++ " to number")

/-- `castToBoolean`: booleans pass; lowercased strings in
true/1/yes/on or false/0/no/off map accordingly, other strings throw;
numbers map to `value !== 0`; everything else throws. -/
def castToBoolean (v : JsValue) : Except String JsValue :=
  match v with
  | .boolean b => .ok (.boolean b)
  | .str s =>
    let lower := strLower s
    if lower = "true" ∨ lower = "1" ∨ lower = "yes" ∨ lower = "on" then
      .ok (.boolean true)
    else if lower = "false" ∨ lower = "0" ∨ lower = "no" ∨ lower = "off" then
      .ok (.boolean false)
    else .error ("Cannot convert string " ++ sqS ++ s ++ sqS ++ " to boolean")
  | .num n => .ok (.boolean (n != 0))
  | w => .error ("Cannot convert " ++ typeofStr w ++ " to boolean")

/-- The maximal absolute epoch-millisecond value of a valid JS `Date`
(±8,640,000,000,000,000 ms); beyond it `getTime()` is NaN. -/
def maxDateMs : Nat := 8640000000000000

/-- `castToDate`: dates pass; strings go through `new Date(string)` with the
NaN check; a number is taken as milliseconds when strictly above 1e10 and as
seconds (times 1000) otherwise, with the NaN (range) check on the resulting
date; everything else throws. -/
def castToDate (v : JsValue) : Except String JsValue :=
  match v with
  | .date ms => .ok (.date ms)
  | .str s =>
    match jsDateParse s with
    | some t =>
      if t.natAbs ≤ maxDateMs then .ok (.date t)
      else .error ("Invalid date string: " ++ sqS ++ s ++ sqS)
    | none => .error ("Invalid date string: " ++ sqS ++ s ++ sqS)
  | .num n =>
    let ms : Int := if n > 10000000000 then n else n * 1000
    if ms.natAbs ≤ maxDateMs then .ok (.date ms)
    else .error ("Invalid timestamp: " ++ toString n)
  | w => .error ("Cannot convert " ++ typeofStr w ++ " to date")

/-- `ObjectId.isValid` for strings: 24 hex characters (the driver also
accepts 12-character binary strings, which do not arise among decoded JSON
document values). -/
def isValidObjectIdStr (s : String) : Bool :=
  s.data.length = 24 &&
    s.data.all fun c =>
      c.isDigit || (97 ≤ c.toNat && c.toNat ≤ 102) || (65 ≤ c.toNat && c.toNat ≤ 70)

/-- `castToObjectId`: ObjectId values pass; a string passing
`ObjectId.isValid` converts; everything else throws. -/
def castToObjectId (v : JsValue) : Except String JsValue :=
  match v with
  | .objectId h => .ok (.objectId h)
  | .str s =>
    if isValidObjectIdStr s then .ok (.objectId s)
    else .error ("Invalid ObjectId string: " ++ sqS ++ s ++ sqS)
  | w => .error ("Cannot convert " ++ typeofStr w ++ " to ObjectId")

/-- `castToArray`: arrays pass; a string is tried as JSON and used when it
parses to an array, otherwise (parse failure or non-array result) the
original string is wrapped as a one-element array; any other value is
wrapped.  Total: it never throws. -/
def castToArray (v : JsValue) : JsValue :=
  match v with
  | .arr a => .arr a
  | .str s =>
    match jsonParse s with
    | some (.arr a) => .arr a
    | some _ => .arr (.cons (.str s) .nil)
    | none => .arr (.cons (.str s) .nil)
  | w => .arr (.cons w .nil)

/-- `castToObject`: non-array objects pass (the source test
`typeof value === "object" && value !== null && !Array.isArray(value)` also
passes a `Date` or `ObjectId` through unchanged); a string is tried as JSON
and used when it parses to a non-array object; any other value is wrapped as
`\x7b value: v \x7d`.  Total: it never throws. -/
def castToObject (v : JsValue) : JsValue :=
  match v with
  | .obj f => .obj f
  | .date ms => .date ms
  | .objectId h => .objectId h
  | .str s =>
    match jsonParse s with
    | some (.obj f) => .obj f
    | _ => .obj (.cons "value" (.str s) .nil)
  | w => .obj (.cons "value" w .nil)

/-- The body of `castToType`: the null/undefined and already-correct-type
early returns, then the per-target switch; a thrown conversion error is
`Except.error`, and target tags outside the switch (the `default` arm) return
the value unchanged. -/
def castToTypeRaw (v : JsValue) (targetType : TypeTag) : Except String JsValue :=
  match v with
  | .null => .ok .null
  | .undef => .ok .undef
  | value =>
    if getValueType value == targetType then .ok value
    else
      match targetType with
      | .string => .ok (castToString value)
      | .number => castToNumber value
      | .boolean => castToBoolean value
      | .date => castToDate value
      | .objectId => castToObjectId value
      | .array => .ok (castToArray value)
      | .object => .ok (castToObject value)
      | _ => .ok value

/-- `castToType`: the switch is wrapped in try/catch, and a conversion error
is caught, logged to the console (not to the validation report) and turned
into returning the original value.  The `fieldPath` argument is used by the
source only inside that console warning. -/
def castToType (v : JsValue) (targetType : TypeTag) (fieldPath : String) : JsValue :=
  match castToTypeRaw v targetType with
  | .ok r => r
  | .error _ => v

/-- The IMPORT_OPTIONS configuration object with its source defaults (the
members consulted by the verified functions). -/
structure ImportOptions where
  recreateDatabase : Bool := true
  recreateIndexes : Bool := true
  validateData : Bool := true
  typeCasting : Bool := true
  batchSize : Nat := 1000
  clearCollections : Bool := true

/-- The source-level global configuration with its defaults. -/
def IMPORT_OPTIONS : ImportOptions := {}

mutual
/-- A field schema as consumed by `validateDocument`: the declared `type`,
the `required`/`nullCount` pair read by the missing-field check (a JS member
that may be absent is `Option`), the optional `nestedFields` map and the
optional `arrayElementType`.  The JS distinction between an absent and an
empty `nestedFields` object is observationally irrelevant (the loop over the
entries of an empty object is a no-op), so `FieldMap.nil` covers both. -/
inductive FieldSchema where
  | mk (type : TypeTag) (required : Bool) (nullCount : Option Nat)
      (nestedFields : FieldMap) (arrayElementType : Option TypeTag)
inductive FieldMap where
  | nil
  | cons (name : String) (fs : FieldSchema) (rest : FieldMap)
end

def FieldSchema.type : FieldSchema → TypeTag
  | .mk t _ _ _ _ => t

def FieldSchema.required : FieldSchema → Bool
  | .mk _ r _ _ _ => r

def FieldSchema.nullCount : FieldSchema → Option Nat
  | .mk _ _ nc _ _ => nc

def FieldSchema.nestedFields : FieldSchema → FieldMap
  | .mk _ _ _ nf _ => nf

def FieldSchema.arrayElementType : FieldSchema → Option TypeTag
  | .mk _ _ _ _ aet => aet

/-- A leaf schema carrying only a type, as the source constructs for array
elements: `\x7b type: fieldSchema.arrayElementType, required: false \x7d`. -/
def leafSchema (t : TypeTag) : FieldSchema := .mk t false none .nil none

/-- `Object.entries` of a nested-field map, in insertion order. -/
def FieldMap.entries : FieldMap → List (String × FieldSchema)
  | .nil => []
  | .cons n fs r => (n, fs) :: r.entries

mutual
/-- Recursion depth of a field schema: bounds the recursion of
`validateField` (each descent into `nestedFields` or into the constructed
array-element schema consumes one level). -/
def schemaDepth : FieldSchema → Nat
  | .mk _ _ _ nf aet => max (mapDepth nf) (if aet.isSome then 1 else 0) + 1
def mapDepth : FieldMap → Nat
  | .nil => 0
  | .cons _ fs r => max (schemaDepth fs) (mapDepth r)
end

/-- The accumulators closed over by `validateDocument`: the `errors` and
`warnings` arrays and the `typeCastingCount` counter. -/
structure VState where
  errors : List String := []
  warnings : List String := []
  typeCastingCount : Nat := 0
  deriving DecidableEq, Repr

/-- `value === null || value === undefined`, the first test of
`validateField`. -/
def isNullOrUndef : JsValue → Bool
  | .null => true
  | .undef => true
  | _ => false

/-- The literal error `Required field ... is missing` pushed by the
validator. -/
def missingFieldMsg (fieldPath : String) : String :=
  "Required field " ++ sqS ++ fieldPath ++ sqS ++ " is missing"

/-- The warning pushed when the post-cast type still differs from the
expected type while type casting is enabled. -/
def mismatchCastFailedMsg (fieldPath : String) (finalType expectedType : TypeTag) : String :=
  "Field " ++ sqS ++ fieldPath ++ sqS ++ " has type " ++ sqS ++ tagStr finalType ++ sqS ++
    ", expected " ++ sqS ++ tagStr expectedType ++ sqS ++ " (casting failed)"

/-- The same warning when type casting is disabled. -/
def mismatchMsg (fieldPath : String) (finalType expectedType : TypeTag) : String :=
  "Field " ++ sqS ++ fieldPath ++ sqS ++ " has type " ++ sqS ++ tagStr finalType ++ sqS ++
    ", expected " ++ sqS ++ tagStr expectedType ++ sqS

/-- The null/undefined branch of `validateField` (lines 220-225): a missing
required field with `nullCount === 0` records an error, the value is
returned as is. -/
def nullStage (fieldSchema : FieldSchema) (fieldPath : String) (st : VState) : VState :=
  if fieldSchema.required && fieldSchema.nullCount == some 0 then
    { st with errors := st.errors ++ [missingFieldMsg fieldPath] }
  else st

/-- The type-casting stage of `validateField` (lines 232-244): when casting
is enabled and the observed type differs from the declared one, `castToType`
runs and a cast is counted exactly when it returned a different value.  The
try/catch around this call in the source is dead code — `castToType` catches
its own conversion errors — so no catch branch appears. -/
def castStage (value : JsValue) (expectedType : TypeTag) (fieldPath : String)
    (st : VState) : JsValue × Bool × VState :=
  if IMPORT_OPTIONS.typeCasting && !(getValueType value == expectedType) then
    let fv := castToType value expectedType fieldPath
    if !(fv == value) then
      (fv, true, { st with typeCastingCount := st.typeCastingCount + 1 })
    else (fv, false, st)
  else (value, false, st)

/-- The post-cast type check of `validateField` (lines 246-254): a warning
when the final type still differs from the declared one. -/
def warnStage (fieldPath : String) (finalType expectedType : TypeTag) (st : VState) :
    VState :=
  if !(finalType == expectedType) then
    if IMPORT_OPTIONS.typeCasting then
      { st with warnings := st.warnings ++ [mismatchCastFailedMsg fieldPath finalType expectedType] }
    else
      { st with warnings := st.warnings ++ [mismatchMsg fieldPath finalType expectedType] }
  else st

/-- The nested-object loop of `validateField` (lines 256-271), parameterized
by the recursive call: each declared nested field present in the current
object value is validated and assigned back. -/
def nestedLoop (recur : JsValue → FieldSchema → String → VState → JsValue × Bool × VState)
    (entries : List (String × FieldSchema)) (fieldPath : String)
    (init : JsValue × Bool × VState) : JsValue × Bool × VState :=
  entries.foldl
    (fun acc e =>
      match acc.1 with
      | .obj fields =>
        if fields.hasField e.1 then
          let r := recur (fields.getF e.1) e.2 (fieldPath ++ "." ++ e.1) acc.2.2
          (.obj (fields.setF e.1 r.1), acc.2.1 || r.2.1, r.2.2)
        else acc
      | _ => acc)
    init

/-- The array-element loop of `validateField` (lines 273-286), parameterized
by the recursive call: when the final value is an array and the schema
carries an element type, every element is validated against the constructed
leaf schema and the mapped array replaces the value. -/
def arrayStage (recur : JsValue → FieldSchema → String → VState → JsValue × Bool × VState)
    (aet : Option TypeTag) (finalType : TypeTag) (fieldPath : String)
    (acc0 : JsValue × Bool × VState) : JsValue × Bool × VState :=
  match acc0.1, aet with
  | .arr items, some elemT =>
    if finalType == TypeTag.array then
      let r := items.toList.foldl
        (fun (acc : List JsValue × Nat × Bool × VState) item =>
          let ir := recur item (leafSchema elemT)
            (fieldPath ++ "[" ++ toString acc.2.1 ++ "]") acc.2.2.2
          (ir.1 :: acc.1, acc.2.1 + 1, acc.2.2.1 || ir.2.1, ir.2.2))
        ([], 0, acc0.2.1, acc0.2.2)
      (.arr (JsArr.ofList r.1.reverse), r.2.2.1, r.2.2.2)
    else acc0
  | _, _ => acc0

/-- One `validateField` call of the source, with the recursion depth made
explicit as fuel (`validateField` below supplies a sufficient fuel; the
fuel-0 base is unreachable from it).  Returns the JS
`\x7b value, castingPerformed \x7d` pair together with the updated
closed-over state; the stages above are the consecutive blocks of the
source body. -/
def validateFieldF : Nat → JsValue → FieldSchema → String → VState → JsValue × Bool × VState
  | 0, value, _, _, st => (value, false, st)
  | fuel + 1, value, fieldSchema, fieldPath, st0 =>
    if isNullOrUndef value then
      (value, false, nullStage fieldSchema fieldPath st0)
    else
      let cast := castStage value fieldSchema.type fieldPath st0
      let finalType := getValueType cast.1
      let st2 := warnStage fieldPath finalType fieldSchema.type cast.2.2
      let afterNested : JsValue × Bool × VState :=
        if finalType == TypeTag.object then
          nestedLoop (validateFieldF fuel) fieldSchema.nestedFields.entries fieldPath
            (cast.1, cast.2.1, st2)
        else (cast.1, cast.2.1, st2)
      arrayStage (validateFieldF fuel) fieldSchema.arrayElementType finalType fieldPath
        afterNested

/-- `validateField` as invoked by the source; the fuel is the schema depth,
which bounds the recursion (nested descent consumes one level and the
constructed array-element leaf schema has depth 1). -/
def validateField (value : JsValue) (fieldSchema : FieldSchema) (fieldPath : String)
    (st : VState) : JsValue × Bool × VState :=
  validateFieldF (schemaDepth fieldSchema) value fieldSchema fieldPath st

/-- A collection schema as read by the import utility: the per-field map. -/
structure CollSchema where
  fields : FieldMap

/-- The validation report returned by `validateDocument`. -/
structure ValidationReport where
  isValid : Bool
  document : JsValue
  errors : List String
  warnings : List String
  typeCastingCount : Nat

/-- One schema field of the `validateDocument` loop: a field present in the
document is validated and assigned back, a missing required field with
`nullCount === 0` records an error, anything else is untouched. -/
def docFieldStep (acc : JsValue × VState) (e : String × FieldSchema) : JsValue × VState :=
  match acc.1 with
  | .obj fields =>
    if fields.hasField e.1 then
      let r := validateField (fields.getF e.1) e.2 e.1 acc.2
      (JsValue.obj (fields.setF e.1 r.1), r.2.2)
    else if e.2.required && e.2.nullCount == some 0 then
      (acc.1, { acc.2 with errors := acc.2.errors ++ [missingFieldMsg e.1] })
    else acc
  | _ =>
    if e.2.required && e.2.nullCount == some 0 then
      (acc.1, { acc.2 with errors := acc.2.errors ++ [missingFieldMsg e.1] })
    else acc

/-- `validateDocument`: deep-copies the document via the JSON round trip,
then walks every schema field in order with `docFieldStep`, and assembles
the report with `isValid = (errors.length === 0)`. -/
def validateDocument (doc : JsValue) (schema : CollSchema) : ValidationReport :=
  let r := schema.fields.entries.foldl docFieldStep (jsonRoundTrip doc, {})
  { isValid := r.2.errors.isEmpty
    document := r.1
    errors := r.2.errors
    warnings := r.2.warnings
    typeCastingCount := r.2.typeCastingCount }

/-- A per-path type-frequency table: an insertion-ordered association list
from tag to count, matching the JS object keyed by the type strings. -/
abbrev TypeCounts := List (TypeTag × Nat)

/-- The inference accumulator `schema`: an insertion-ordered association list
from field path to its frequency table. -/
abbrev SchemaAcc := List (String × TypeCounts)

/-- Association-list read with the JS undefined-as-0 semantics
(`types[t] || 0`, and `undefined > 0` is false). -/
def countOf (tbl : TypeCounts) (t : TypeTag) : Nat :=
  match tbl.find? (fun e => e.1 == t) with
  | some e => e.2
  | none => 0

/-- `types[t] = (types[t] || 0) + 1`, preserving key insertion order. -/
def bumpCount : TypeCounts → TypeTag → TypeCounts
  | [], t => [(t, 1)]
  | e :: r, t => if e.1 == t then (e.1, e.2 + 1) :: r else e :: bumpCount r t

/-- `schema[path][t]` increment, creating the empty `schema[path]` table on
first sight exactly as the source does. -/
def addCount : SchemaAcc → String → TypeTag → SchemaAcc
  | [], p, t => [(p, bumpCount [] t)]
  | e :: r, p, t => if e.1 == p then (e.1, bumpCount e.2 t) :: r else e :: addCount r p t

mutual
/-- `analyzeObject` of the enhanced export utility, walking one value with
the accumulator and path prefix.  Handed an array (an array nested directly
inside an array) the JS `Object.keys` enumeration yields the index strings,
reproduced by `analyzeIdxItems`; a `Date` or `ObjectId` handed in from an
array has no own enumerable keys and contributes nothing. -/
def analyzeObject (v : JsValue) (schema : SchemaAcc) (pfx : String) : SchemaAcc :=
  match v with
  | .obj fields => analyzeFields fields schema pfx
  | .arr items => analyzeIdxItems items 0 schema pfx
  | _ => schema
/-- The per-key body of the `Object.keys(obj).forEach` loop. -/
def analyzeFields : JsObj → SchemaAcc → String → SchemaAcc
  | .nil, schema, _ => schema
  | .cons key value rest, schema, pfx =>
    let fullKey := if pfx == "" then key else pfx ++ "." ++ key
    let schema1 := addCount schema fullKey (getValueType value)
    let schema2 := analyzeValueRec value schema1 fullKey
    analyzeFields rest schema2 pfx
/-- The recursion step after counting: descend into an object, or into the
elements of a non-empty array with the `[]` path marker. -/
def analyzeValueRec (value : JsValue) (schema : SchemaAcc) (fullKey : String) : SchemaAcc :=
  match value with
  | .obj fields => analyzeFields fields schema fullKey
  | .arr items =>
    match items with
    | .nil => schema
    | _ => analyzeArrItems items schema (fullKey ++ "[]")
  | _ => schema
/-- The `value.forEach(item => ...)` loop: only items with
`typeof item === "object"` that are not null are walked (a walked `Date` or
`ObjectId` would contribute nothing and is covered by the skip branch). -/
def analyzeArrItems : JsArr → SchemaAcc → String → SchemaAcc
  | .nil, schema, _ => schema
  | .cons item rest, schema, p =>
    let schema1 :=
      match item with
      | .obj f => analyzeFields f schema p
      | .arr inner => analyzeIdxItems inner 0 schema p
      | _ => schema
    analyzeArrItems rest schema1 p
/-- `Object.keys` enumeration of an array: the index strings. -/
def analyzeIdxItems : JsArr → Nat → SchemaAcc → String → SchemaAcc
  | .nil, _, schema, _ => schema
  | .cons value rest, i, schema, pfx =>
    let fullKey := if pfx == "" then toString i else pfx ++ "." ++ toString i
    let schema1 := addCount schema fullKey (getValueType value)
    let schema2 := analyzeValueRec value schema1 fullKey
    analyzeIdxItems rest (i + 1) schema2 pfx
end

/-- The counting phase of `analyzeFieldTypes`: every document walked by
`analyzeObject` with the empty prefix. -/
def analyzeRaw (documents : List JsValue) : SchemaAcc :=
  documents.foldl (fun schema doc => analyzeObject doc schema "") []

/-- The per-path result of schema inference: the JS object
`\x7b type, nullable, samples \x7d`. -/
structure FieldInfo where
  type : TypeTag
  nullable : Bool
  samples : Nat
  deriving DecidableEq, Repr

/-- The arg-max reduce of the source
(`Object.keys(types).reduce((a, b) => types[a] > types[b] ? a : b)`): the
accumulator is kept only when strictly more frequent, so later keys win
ties.  The empty table cannot arise (the JS reduce would throw); the
`undefined` fallback is unreachable. -/
def mostCommonType (tbl : TypeCounts) : TypeTag :=
  match tbl with
  | [] => .undefined
  | e :: rest =>
    (rest.map Prod.fst).foldl (fun a b => if countOf tbl a > countOf tbl b then a else b) e.1

/-- The reduction of one frequency table to a field schema entry. -/
def reduceTypes (tbl : TypeCounts) : FieldInfo :=
  { type := mostCommonType tbl
    nullable := decide (countOf tbl .null > 0)
    samples := (tbl.map Prod.snd).foldl max 0 }

/-- `analyzeFieldTypes`: walk all documents, then reduce every frequency
table in place. -/
def analyzeFieldTypes (documents : List JsValue) : List (String × FieldInfo) :=
  (analyzeRaw documents).map fun e => (e.1, reduceTypes e.2)

/-- `mongoTypeToSQL` (an unmapped tag falls back to TEXT). -/
def mongoTypeToSQL (t : TypeTag) : String :=
  match t with
  | .string => "TEXT"
  | .number => "DECIMAL(10,2)"
  | .boolean => "BOOLEAN"
  | .date => "DATETIME"
  | .objectId => "VARCHAR(24)"
  | .array => "JSON"
  | .object => "JSON"
  | .null => "TEXT"
  | .undefined => "TEXT"

/-- The column-name transform of the source: replace every `[]` with
`_array`, then every `.` with `_`. -/
def cleanField (field : String) : String :=
  strReplace (strReplace field "[]" "_array") "." "_"

/-- `generateCreateTableSQL`. -/
def generateCreateTableSQL (collectionName : String)
    (schema : List (String × FieldInfo)) : String :=
  let header := "-- Schema for collection: " ++ collectionName ++ "\n" ++
    "CREATE TABLE IF NOT EXISTS " ++ btS ++ collectionName ++ btS ++ " (\n"
  let fields := schema.map fun e =>
    let nullable := if e.2.nullable then "" else " NOT NULL"
    "  " ++ btS ++ cleanField e.1 ++ btS ++ " " ++ mongoTypeToSQL e.2.type ++ nullable
  let fields :=
    if (schema.find? (fun e => e.1 == "_id")).isSome then fields
    else ("  " ++ btS ++ "_id" ++ btS ++ " VARCHAR(24) PRIMARY KEY") :: fields
  header ++ String.intercalate ",\n" fields ++ "\n);\n\n"

/-- One top-level member of `flattenObject`: null and undefined map to null,
arrays and plain objects serialize to their JSON text, a `Date` or
`ObjectId` or any primitive passes through. -/
def flattenEntry (pfx key : String) (value : JsValue) : String × JsValue :=
  let newKey := if pfx == "" then key else pfx ++ "." ++ key
  match value with
  | .null => (newKey, .null)
  | .undef => (newKey, .null)
  | .arr a => (newKey, .str (jsonStringify (.arr a)))
  | .obj f => (newKey, .str (jsonStringify (.obj f)))
  | w => (newKey, w)

/-- `flattenObject` of the enhanced export utility.  Despite its `prefix`
parameter it is not recursive: it walks only the top-level keys of the
document, serializing every nested array or plain object to JSON text under
its top-level key.  The call site passes decoded documents, which are plain
objects. -/
def flattenObject (v : JsValue) (pfx : String := "") : List (String × JsValue) :=
  match v with
  | .obj fields => fields.entries.map fun e => flattenEntry pfx e.1 e.2
  | _ => []

/-- `formatValueForSQL`: NULL for null and undefined, single quotes doubled
inside quoted strings, 1/0 for booleans, the `YYYY-MM-DD HH:MM:SS` slice of
the ISO form for dates, the quoted hex for an ObjectId, and the bare value
otherwise (a number prints its decimal form through the string
interpolation of the caller; a composite cannot reach the fallback from
`generateInsertSQL`, which has already serialized composites to JSON
strings). -/
def formatValueForSQL (v : JsValue) : String :=
  match v with
  | .null => "NULL"
  | .undef => "NULL"
  | .str s => sqS ++ strReplace s sqS (sqS ++ sqS) ++ sqS
  | .boolean b => if b then "1" else "0"
  | .date ms => sqS ++ strReplace (String.mk ((dateToISO ms).data.take 19)) "T" " " ++ sqS
  | .objectId h => sqS ++ h ++ sqS
  | .num n => toString n
  | .arr a => jsonStringify (.arr a)
  | .obj f => jsonStringify (.obj f)

/-- `generateInsertSQL`.  The `schema` parameter is unused by the source
body: each document is flattened (top level only) and emitted as one INSERT
whose column list is exactly the cleaned flattened keys of that document —
a schema column with no corresponding key is simply absent, never padded
with NULL. -/
def generateInsertSQL (collectionName : String) (documents : List JsValue)
    (schema : List (String × FieldInfo)) : String :=
  let body := documents.foldl
    (fun sql doc =>
      let flatDoc := flattenObject doc
      let fields := flatDoc.map fun e => btS ++ cleanField e.1 ++ btS
      let values := flatDoc.map fun e => formatValueForSQL e.2
      sql ++ "INSERT INTO " ++ btS ++ collectionName ++ btS ++ " (" ++
        String.intercalate ", " fields ++ ") VALUES (" ++
        String.intercalate ", " values ++ ");\n")
    ("-- Data for collection: " ++ collectionName ++ "\n")
  body ++ "\n"

/-- One observable document-store submission of the import loop. -/
inductive BulkOp (α : Type) where
  | bulkInsert (batch : List α)
  | insertOne (doc : α)
  deriving DecidableEq, Repr

/-- The batching loop of `importCollectionData`
(`for (i = 0; i < n; i += batchSize)` with `slice(i, i + batchSize)`,
`insertMany` inside a try, and on its failure a per-document `insertOne`
fallback for exactly that batch), abstracted over an oracle telling which
submitted bulk inserts fail.  The fuel bounds the iteration count; the
wrapper supplies the list length, sufficient for every positive batch
size. -/
def importBatchesF {α : Type} : Nat → Nat → (List α → Bool) → List α → List (BulkOp α)
  | 0, _, _, _ => []
  | _ + 1, _, _, [] => []
  | fuel + 1, batchSize, bulkFails, docs =>
    let batch := docs.take batchSize
    (BulkOp.bulkInsert batch ::
      (if bulkFails batch then batch.map BulkOp.insertOne else [])) ++
      importBatchesF fuel batchSize bulkFails (docs.drop batchSize)

/-- The batch submissions of `importCollectionData` for a document list,
using the configured `IMPORT_OPTIONS.batchSize`. -/
def importCollectionBatches {α : Type} (bulkFails : List α → Bool) (docs : List α) :
    List (BulkOp α) :=
  importBatchesF docs.length IMPORT_OPTIONS.batchSize bulkFails docs

namespace Mut

/- The pure embedding above cannot express mutation, so the no-mutation claim
   about the validator is settled against this second faithful translation of
   `validateDocument`, in which JS arrays and objects live in an explicit
   store addressed by references, member writes update the store, and the
   JSON round-trip copy allocates fresh nodes.  The two embeddings translate
   the same source functions at two levels of abstraction. -/

/-- A heap value: a primitive, or a reference to an array or object node in
the store.  `Date` and `ObjectId` objects are never mutated by the validator
and are carried as primitives. -/
inductive HVal where
  | null
  | undef
  | str (s : String)
  | num (n : Int)
  | boolean (b : Bool)
  | date (ms : Int)
  | objectId (hex : String)
  | ref (a : Nat)
  deriving DecidableEq, Repr

/-- A store node: an array of values or an object of named members. -/
inductive HNode where
  | arrN (items : List HVal)
  | objN (fields : List (String × HVal))
  deriving DecidableEq, Repr

/-- The store: an allocation counter and the allocated nodes. -/
structure Heap where
  next : Nat := 0
  mem : List (Nat × HNode) := []
  deriving DecidableEq, Repr

/-- Node lookup by address. -/
def lookup (h : Heap) (a : Nat) : Option HNode :=
  match h.mem.find? (fun e => e.1 == a) with
  | some e => some e.2
  | none => none

/-- In-place update of the entry at one address of a node list. -/
def updList (l : List (Nat × HNode)) (a : Nat) (nd : HNode) : List (Nat × HNode) :=
  l.map fun e => if e.1 == a then (a, nd) else e

/-- Overwrite the node at an allocated address. -/
def writeAt (h : Heap) (a : Nat) (nd : HNode) : Heap :=
  { h with mem := updList h.mem a nd }

/-- Allocate a fresh node at the allocation counter. -/
def alloc (h : Heap) (nd : HNode) : Heap × HVal :=
  ({ next := h.next + 1, mem := h.mem ++ [(h.next, nd)] }, .ref h.next)

/-- Rebuild a `JsObj` from an entry list. -/
def objOfList : List (String × JsValue) → JsObj
  | [] => .nil
  | e :: r => .cons e.1 e.2 (objOfList r)

mutual
/-- Read a heap value into a pure tree; the fuel bounds the depth and `none`
models the non-termination a cyclic structure would cause (reachable only
through `JSON.stringify`, which throws on cycles). -/
def readTree : Nat → Heap → HVal → Option JsValue
  | 0, _, _ => none
  | _ + 1, _, .null => some .null
  | _ + 1, _, .undef => some .undef
  | _ + 1, _, .str s => some (.str s)
  | _ + 1, _, .num n => some (.num n)
  | _ + 1, _, .boolean b => some (.boolean b)
  | _ + 1, _, .date ms => some (.date ms)
  | _ + 1, _, .objectId x => some (.objectId x)
  | fuel + 1, h, .ref a =>
    match lookup h a with
    | some (.arrN items) =>
      match readTreeItems fuel h items with
      | some l => some (.arr (JsArr.ofList l))
      | none => none
    | some (.objN fields) =>
      match readTreeFields fuel h fields with
      | some l => some (.obj (objOfList l))
      | none => none
    | none => none
  termination_by fuel _ _ => (fuel, 0)
def readTreeItems : Nat → Heap → List HVal → Option (List JsValue)
  | _, _, [] => some []
  | fuel, h, v :: r =>
    match readTree fuel h v, readTreeItems fuel h r with
    | some t, some l => some (t :: l)
    | _, _ => none
  termination_by fuel _ l => (fuel, l.length + 1)
def readTreeFields : Nat → Heap → List (String × HVal) → Option (List (String × JsValue))
  | _, _, [] => some []
  | fuel, h, e :: r =>
    match readTree fuel h e.2, readTreeFields fuel h r with
    | some t, some l => some ((e.1, t) :: l)
    | _, _ => none
  termination_by fuel _ l => (fuel, l.length + 1)
end

mutual
/-- Allocate a pure value tree into the store (the effect of `JSON.parse` or
of a JS array/object literal): fresh nodes for every composite. -/
def allocTree (h : Heap) : JsValue → Heap × HVal
  | .null => (h, .null)
  | .undef => (h, .undef)
  | .str s => (h, .str s)
  | .num n => (h, .num n)
  | .boolean b => (h, .boolean b)
  | .date ms => (h, .date ms)
  | .objectId x => (h, .objectId x)
  | .arr items =>
    let r := allocItems h items
    alloc r.1 (.arrN r.2)
  | .obj fields =>
    let r := allocFields h fields
    alloc r.1 (.objN r.2)
def allocItems (h : Heap) : JsArr → Heap × List HVal
  | .nil => (h, [])
  | .cons v rest =>
    let r1 := allocTree h v
    let r2 := allocItems r1.1 rest
    (r2.1, r1.2 :: r2.2)
def allocFields (h : Heap) : JsObj → Heap × List (String × HVal)
  | .nil => (h, [])
  | .cons n v rest =>
    let r1 := allocTree h v
    let r2 := allocFields r1.1 rest
    (r2.1, (n, r1.2) :: r2.2)
end

/-- `getValueType` on a heap value (the array/object distinction reads the
node; a dangling reference cannot arise in a well-formed store). -/
def getValueTypeH (h : Heap) (v : HVal) : TypeTag :=
  match v with
  | .null => .null
  | .undef => .undefined
  | .str _ => .string
  | .num _ => .number
  | .boolean _ => .boolean
  | .date _ => .date
  | .objectId _ => .objectId
  | .ref a =>
    match lookup h a with
    | some (.arrN _) => .array
    | _ => .object

/-- `castToString` in the heap model: reads (never writes) the store;
serializing a cyclic structure is the error the enclosing try catches. -/
def castToStringH (fuel : Nat) (h : Heap) (v : HVal) : Except String HVal :=
  match v with
  | .str s => .ok (.str s)
  | .num n => .ok (.str (toString n))
  | .boolean b => .ok (.str (if b then "true" else "false"))
  | .date ms => .ok (.str (dateToISO ms))
  | .objectId x => .ok (.str x)
  | .null => .ok (.str "null")
  | .undef => .ok (.str "undefined")
  | .ref a =>
    match readTree fuel h (.ref a) with
    | some t => .ok (.str (jsonStringify t))
    | none => .error "Converting circular structure to JSON"

/-- `castToNumber` on heap values (a reference has `typeof` object and
throws; the null and undefined arms are unreachable past the early
return). -/
def castToNumberH (v : HVal) : Except String HVal :=
  match v with
  | .num n => .ok (.num n)
  | .str s =>
    match strToNumber s with
    | some n => .ok (.num n)
    | none => .error ("Cannot convert " ++ sqS ++ s ++ sqS ++ " to number")
  | .boolean b => .ok (.num (if b then 1 else 0))
  | .date ms => .ok (.num ms)
  | .undef => .error "Cannot convert undefined to number"
  | _ => .error "Cannot convert object to number"

/-- `castToBoolean` on heap values. -/
def castToBooleanH (v : HVal) : Except String HVal :=
  match v with
  | .boolean b => .ok (.boolean b)
  | .str s =>
    let lower := strLower s
    if lower = "true" ∨ lower = "1" ∨ lower = "yes" ∨ lower = "on" then
      .ok (.boolean true)
    else if lower = "false" ∨ lower = "0" ∨ lower = "no" ∨ lower = "off" then
      .ok (.boolean false)
    else .error ("Cannot convert string " ++ sqS ++ s ++ sqS ++ " to boolean")
  | .num n => .ok (.boolean (n != 0))
  | .undef => .error "Cannot convert undefined to boolean"
  | _ => .error "Cannot convert object to boolean"

/-- `castToDate` on heap values. -/
def castToDateH (v : HVal) : Except String HVal :=
  match v with
  | .date ms => .ok (.date ms)
  | .str s =>
    match jsDateParse s with
    | some t =>
      if t.natAbs ≤ maxDateMs then .ok (.date t)
      else .error ("Invalid date string: " ++ sqS ++ s ++ sqS)
    | none => .error ("Invalid date string: " ++ sqS ++ s ++ sqS)
  | .num n =>
    let ms : Int := if n > 10000000000 then n else n * 1000
    if ms.natAbs ≤ maxDateMs then .ok (.date ms)
    else .error ("Invalid timestamp: " ++ toString n)
  | .undef => .error "Cannot convert undefined to date"
  | _ => .error "Cannot convert object to date"

/-- `castToObjectId` on heap values. -/
def castToObjectIdH (v : HVal) : Except String HVal :=
  match v with
  | .objectId x => .ok (.objectId x)
  | .str s =>
    if isValidObjectIdStr s then .ok (.objectId s)
    else .error ("Invalid ObjectId string: " ++ sqS ++ s ++ sqS)
  | .undef => .error "Cannot convert undefined to ObjectId"
  | _ => .error "Cannot convert object to ObjectId"

/-- `castToArray` in the heap model: an array reference passes through, a
string parsing to a JSON array allocates that tree, everything else wraps in
a freshly allocated one-element array. -/
def castToArrayH (h : Heap) (v : HVal) : Heap × HVal :=
  match v with
  | .ref a =>
    match lookup h a with
    | some (.arrN _) => (h, v)
    | _ => alloc h (.arrN [v])
  | .str s =>
    match jsonParse s with
    | some (.arr items) =>
      let r := allocItems h items
      alloc r.1 (.arrN r.2)
    | _ => alloc h (.arrN [.str s])
  | w => alloc h (.arrN [w])

/-- `castToObject` in the heap model: an object reference (and a `Date` or
`ObjectId`, which also satisfy the source test) passes through, a string
parsing to a JSON object allocates that tree, everything else wraps in a
freshly allocated single-member object. -/
def castToObjectH (h : Heap) (v : HVal) : Heap × HVal :=
  match v with
  | .ref a =>
    match lookup h a with
    | some (.objN _) => (h, v)
    | _ => alloc h (.objN [("value", v)])
  | .date ms => (h, .date ms)
  | .objectId x => (h, .objectId x)
  | .str s =>
    match jsonParse s with
    | some (.obj fields) =>
      let r := allocFields h fields
      alloc r.1 (.objN r.2)
    | _ => alloc h (.objN [("value", .str s)])
  | w => alloc h (.objN [("value", w)])

/-- The body of `castToType` in the heap model. -/
def castToTypeRawH (fuel : Nat) (h : Heap) (v : HVal) (targetType : TypeTag) :
    Heap × Except String HVal :=
  match v with
  | .null => (h, .ok .null)
  | .undef => (h, .ok .undef)
  | value =>
    if getValueTypeH h value == targetType then (h, .ok value)
    else
      match targetType with
      | .string => (h, castToStringH fuel h value)
      | .number => (h, castToNumberH value)
      | .boolean => (h, castToBooleanH value)
      | .date => (h, castToDateH value)
      | .objectId => (h, castToObjectIdH value)
      | .array =>
        let r := castToArrayH h value
        (r.1, .ok r.2)
      | .object =>
        let r := castToObjectH h value
        (r.1, .ok r.2)
      | _ => (h, .ok value)

/-- `castToType` in the heap model (the catch returns the original value). -/
def castToTypeH (fuel : Nat) (h : Heap) (v : HVal) (t : TypeTag) : Heap × HVal :=
  match castToTypeRawH fuel h v t with
  | (h1, .ok r) => (h1, r)
  | (h1, .error _) => (h1, v)

/-- `hasOwnProperty` through a reference (only reached with an object-typed
value in the validator). -/
def hasFieldH (h : Heap) (v : HVal) (k : String) : Bool :=
  match v with
  | .ref a =>
    match lookup h a with
    | some (.objN fields) => (fields.find? fun e => e.1 == k).isSome
    | _ => false
  | _ => false

/-- Member read through a reference. -/
def getFieldH (h : Heap) (v : HVal) (k : String) : HVal :=
  match v with
  | .ref a =>
    match lookup h a with
    | some (.objN fields) =>
      match fields.find? (fun e => e.1 == k) with
      | some e => e.2
      | none => .undef
    | _ => .undef
  | _ => (.undef)

/-- In-place member update of an entry list (the key exists at the call
sites; a missing key is appended, as JS assignment would). -/
def setAssoc : List (String × HVal) → String → HVal → List (String × HVal)
  | [], k, v => [(k, v)]
  | e :: r, k, v => if e.1 == k then (e.1, v) :: r else e :: setAssoc r k v

/-- Member write `o[k] = v` through a reference: mutates the store node. -/
def setFieldH (h : Heap) (target : HVal) (k : String) (v : HVal) : Heap :=
  match target with
  | .ref a =>
    match lookup h a with
    | some (.objN fields) => writeAt h a (.objN (setAssoc fields k v))
    | _ => h
  | _ => h

/-- The `JSON.parse(JSON.stringify(doc))` deep copy in the heap model: read
the document into a tree (`none` models the stringify TypeError on a cyclic
document), apply the round-trip transformation, and allocate the copy as
fresh nodes. -/
def jsonRoundTripH (fuel : Nat) (h : Heap) (v : HVal) : Option (Heap × HVal) :=
  match readTree fuel h v with
  | some t => some (allocTree h (jsonRoundTrip t))
  | none => none

/-- The type-casting stage of `validateField` in the heap model: the
`finalValue !== value` test is primitive/reference identity, which `HVal`
equality models exactly. -/
def castStageH (fuel : Nat) (h : Heap) (value : HVal) (expectedType : TypeTag)
    (st : VState) : Heap × HVal × Bool × VState :=
  if IMPORT_OPTIONS.typeCasting && !(getValueTypeH h value == expectedType) then
    let r := castToTypeH fuel h value expectedType
    if !(r.2 == value) then
      (r.1, r.2, true, { st with typeCastingCount := st.typeCastingCount + 1 })
    else (r.1, r.2, false, st)
  else (h, value, false, st)

/-- The nested-object loop of `validateField` in the heap model: each
declared nested field present in the object is validated and written back
into the object node (the mutation of the source). -/
def nestedLoopH
    (recur : Heap → HVal → FieldSchema → String → VState → Heap × HVal × Bool × VState)
    (entries : List (String × FieldSchema)) (finalValue : HVal) (fieldPath : String)
    (init : Heap × Bool × VState) : Heap × Bool × VState :=
  entries.foldl
    (fun acc e =>
      if hasFieldH acc.1 finalValue e.1 then
        let r := recur acc.1 (getFieldH acc.1 finalValue e.1) e.2
          (fieldPath ++ "." ++ e.1) acc.2.2
        (setFieldH r.1 finalValue e.1 r.2.1, acc.2.1 || r.2.2.1, r.2.2.2)
      else acc)
    init

/-- The array-element loop of `validateField` in the heap model: the
elements of the array node are validated in order and the freshly built
array that `map` returns is allocated as a new node (array nodes themselves
are never written in place, so reading the element list up front is
faithful). -/
def arrayStageH
    (recur : Heap → HVal → FieldSchema → String → VState → Heap × HVal × Bool × VState)
    (aet : Option TypeTag) (finalType : TypeTag) (finalValue : HVal) (fieldPath : String)
    (init : Heap × Bool × VState) : Heap × HVal × Bool × VState :=
  match aet with
  | some elemT =>
    if finalType == TypeTag.array then
      match finalValue with
      | .ref a =>
        match lookup init.1 a with
        | some (.arrN items) =>
          let r := items.foldl
            (fun (acc : Heap × List HVal × Nat × Bool × VState) item =>
              let ir := recur acc.1 item (leafSchema elemT)
                (fieldPath ++ "[" ++ toString acc.2.2.1 ++ "]") acc.2.2.2.2
              (ir.1, ir.2.1 :: acc.2.1, acc.2.2.1 + 1, acc.2.2.2.1 || ir.2.2.1,
                ir.2.2.2))
            (init.1, [], 0, init.2.1, init.2.2)
          let alloced := alloc r.1 (.arrN r.2.1.reverse)
          (alloced.1, alloced.2, r.2.2.2.1, r.2.2.2.2)
        | _ => (init.1, finalValue, init.2.1, init.2.2)
      | _ => (init.1, finalValue, init.2.1, init.2.2)
    else (init.1, finalValue, init.2.1, init.2.2)
  | none => (init.1, finalValue, init.2.1, init.2.2)

/-- `validateField` in the heap model, mirroring the pure `validateFieldF`
with the store threaded through. -/
def validateFieldH : Nat → Heap → HVal → FieldSchema → String → VState →
    Heap × HVal × Bool × VState
  | 0, h, value, _, _, st => (h, value, false, st)
  | fuel + 1, h, value, fieldSchema, fieldPath, st0 =>
    if value == HVal.null || value == HVal.undef then
      (h, value, false, nullStage fieldSchema fieldPath st0)
    else
      let cast := castStageH fuel h value fieldSchema.type st0
      let finalType := getValueTypeH cast.1 cast.2.1
      let st2 := warnStage fieldPath finalType fieldSchema.type cast.2.2.2
      let afterNested : Heap × Bool × VState :=
        if finalType == TypeTag.object then
          nestedLoopH (validateFieldH fuel) fieldSchema.nestedFields.entries cast.2.1
            fieldPath (cast.1, cast.2.2.1, st2)
        else (cast.1, cast.2.2.1, st2)
      arrayStageH (validateFieldH fuel) fieldSchema.arrayElementType finalType cast.2.1
        fieldPath afterNested

/-- One schema field of the `validateDocument` loop in the heap model. -/
def docFieldStepH (fuel : Nat) (validatedDoc : HVal) (acc : Mut.Heap × VState)
    (e : String × FieldSchema) : Mut.Heap × VState :=
  if hasFieldH acc.1 validatedDoc e.1 then
    let r := validateFieldH fuel acc.1 (getFieldH acc.1 validatedDoc e.1) e.2 e.1 acc.2
    (setFieldH r.1 validatedDoc e.1 r.2.1, r.2.2.2)
  else if e.2.required && e.2.nullCount == some 0 then
    (acc.1, { acc.2 with errors := acc.2.errors ++ [missingFieldMsg e.1] })
  else acc

/-- `validateDocument` in the heap model: deep-copy via the JSON round trip
(`none` models the uncaught stringify exception on a cyclic document, with
the store returned unchanged), then the per-schema-field loop writing into
the fresh copy. -/
def validateDocumentH (fuel : Nat) (h : Heap) (doc : HVal) (schema : CollSchema) :
    Heap × Option (HVal × VState) :=
  match jsonRoundTripH fuel h doc with
  | none => (h, none)
  | some (h1, validatedDoc) =>
    let r := schema.fields.entries.foldl (docFieldStepH fuel validatedDoc) (h1, {})
    (r.1, some (validatedDoc, r.2))

/-- Store well-formedness: every allocated address lies below the allocation
counter. -/
def WFHeap (h : Heap) : Prop := ∀ e ∈ h.mem, e.1 < h.next

/-- All references inside a heap value lie at or above the watermark. -/
def HVal.geRefs (n0 : Nat) : HVal → Prop
  | .ref a => n0 ≤ a
  | _ => True

/-- All references inside a node lie at or above the watermark. -/
def HNode.geRefs (n0 : Nat) : HNode → Prop
  | .arrN items => ∀ v ∈ items, HVal.geRefs n0 v
  | .objN fields => ∀ e ∈ fields, HVal.geRefs n0 e.2

/-- Every node at or above the watermark keeps its references at or above
the watermark (the fresh-copy region is closed). -/
def HighClosed (n0 : Nat) (h : Heap) : Prop :=
  ∀ a nd, n0 ≤ a → lookup h a = some nd → HNode.geRefs n0 nd

/-- The store invariant threaded through the frame argument. -/
structure Inv (n0 : Nat) (h : Heap) : Prop where
  wf : WFHeap h
  hc : HighClosed n0 h
  le : n0 ≤ h.next

/-- Nothing below the watermark changes. -/
def PreservesLow (n0 : Nat) (h h1 : Heap) : Prop :=
  ∀ a, a < n0 → lookup h1 a = lookup h a

/-- The conclusion shape of every frame lemma: the invariant is preserved,
no address below the watermark changes, and the allocation counter does not
shrink. -/
structure Evolve (n0 : Nat) (h h1 : Heap) : Prop where
  inv : Inv n0 h1
  low : PreservesLow n0 h h1
  mono : h.next ≤ h1.next

end Mut

mutual
/-- Well-formedness of a field schema per the data model of the spec: nested
field schemas appear only under an object-typed field, an array element type
only under an array-typed field, recursively. -/
def WFSchema : FieldSchema → Prop
  | .mk t _ _ nf aet =>
    (nf = FieldMap.nil ∨ t = .object) ∧ (aet = none ∨ t = .array) ∧ WFMap nf
/-- Well-formedness of a nested-field map. -/
def WFMap : FieldMap → Prop
  | .nil => True
  | .cons _ fs r => WFSchema fs ∧ WFMap r
end

/-- The relation between an input and an output validator state: the errors
list only ever grows, and only with missing-required-field messages. -/
def ErrExt (st st1 : VState) : Prop :=
  ∃ extra, st1.errors = st.errors ++ extra ∧ ∀ e ∈ extra, ∃ p, e = missingFieldMsg p

/-- Invariant of the frequency tables built by the walk: nonempty with
positive counts. -/
def GoodTbl (tbl : TypeCounts) : Prop := tbl ≠ [] ∧ ∀ e ∈ tbl, 0 < e.2

/-- Invariant of the inference accumulator: every table is good. -/
def GoodAcc (s : SchemaAcc) : Prop := ∀ e ∈ s, GoodTbl e.2

/-- The scenario-A document of the spec:
`\x7b "age": "34", "active": "yes" \x7d`. -/
def scenarioADoc : JsValue :=
  .obj (.cons "age" (.str "34") (.cons "active" (.str "yes") .nil))

/-- The scenario-A schema: age declared number, active declared boolean. -/
def scenarioASchema : CollSchema :=
  ⟨.cons "age" (leafSchema .number) (.cons "active" (leafSchema .boolean) .nil)⟩

/-- The scenario-D document of the spec:
`\x7b "tags": [ \x7b "name": "a" \x7d, \x7b "name": "b" \x7d ] \x7d`. -/
def scenarioDDoc : JsValue :=
  .obj (.cons "tags" (.arr (.cons (.obj (.cons "name" (.str "a") .nil))
    (.cons (.obj (.cons "name" (.str "b") .nil)) .nil))) .nil)

/- ===================================================================
   Theorems.  Helper lemmas first, then one theorem per claim (with its
   witness or counterexample where required).
   =================================================================== -/

mutual
theorem beqVal_refl : ∀ v : JsValue, beqVal v v = true
  | .null => rfl
  | .undef => rfl
  | .str s => by simp [beqVal]
  | .num n => by simp [beqVal]
  | .boolean b => by simp [beqVal]
  | .date d => by simp [beqVal]
  | .objectId h => by simp [beqVal]
  | .arr a => by simp [beqVal, beqArr_refl a]
  | .obj f => by simp [beqVal, beqObj_refl f]
theorem beqArr_refl : ∀ a : JsArr, beqArr a a = true
  | .nil => rfl
  | .cons v r => by simp [beqArr, beqVal_refl v, beqArr_refl r]
theorem beqObj_refl : ∀ f : JsObj, beqObj f f = true
  | .nil => rfl
  | .cons n v r => by simp [beqObj, beqVal_refl v, beqObj_refl r]
end

/-- C2: the type classifier is total and deterministic — `getValueType` maps
every value to exactly one tag of the closed nine-tag enumeration; null and
undefined get their own tags (null checked first), an array classifies as
array and never as object, a temporal value as date and never as object, an
identifier value as objectId and never as object, primitives classify by
their primitive kind, and a plain object (matching no specialized rule)
classifies as object. -/
theorem c2_classifier_total_deterministic :
    (∀ v : JsValue, ∃! t : TypeTag, getValueType v = t) ∧
    getValueType .null = .null ∧
    getValueType .undef = .undefined ∧
    (∀ a, getValueType (.arr a) = .array ∧ getValueType (.arr a) ≠ .object) ∧
    (∀ ms, getValueType (.date ms) = .date ∧ getValueType (.date ms) ≠ .object) ∧
    (∀ x, getValueType (.objectId x) = .objectId ∧ getValueType (.objectId x) ≠ .object) ∧
    (∀ s, getValueType (.str s) = .string) ∧
    (∀ n, getValueType (.num n) = .number) ∧
    (∀ b, getValueType (.boolean b) = .boolean) ∧
    (∀ f, getValueType (.obj f) = .object) := by
  refine ⟨fun v => ⟨getValueType v, rfl, fun t ht => ht.symm⟩, rfl, rfl, ?_, ?_, ?_,
    fun _ => rfl, fun _ => rfl, fun _ => rfl, fun _ => rfl⟩ <;>
    intro x <;> exact ⟨rfl, by simp [getValueType]⟩

/-- C9: for every target type, a null input and an undefined (absent) input
are returned unchanged by `castToType` before any target-specific conversion
is attempted, and the uncaught body `castToTypeRaw` also succeeds on them —
null values are never converted and never cause a coercion failure. -/
theorem c9_null_undefined_passthrough :
    ∀ (t : TypeTag) (p : String),
      castToType .null t p = .null ∧ castToType .undef t p = .undef ∧
      castToTypeRaw .null t = .ok .null ∧ castToTypeRaw .undef t = .ok .undef :=
  fun _ _ => ⟨rfl, rfl, rfl, rfl⟩

/-- C1 counterexample: the claim treats every number greater than or equal
to 10 billion as milliseconds-since-epoch, but at exactly 10^10 the source
comparison `value > 1e10` is false and the value is multiplied by 1000 as
seconds-since-epoch: the cast yields the date at 10^13 ms, not at 10^10
ms. -/
theorem c1_counterexample_boundary :
    castToDate (.num 10000000000) = .ok (.date 10000000000000) ∧
    (10000000000000 : Int) ≠ 10000000000 :=
  ⟨rfl, by decide⟩

/-- C1 amended: coercion to date passes a temporal value through; a string
is parsed by standard date parsing, the coercion failing on an unparseable
result; a number is interpreted as a timestamp where every number strictly
greater than 10 billion is milliseconds-since-epoch and every number at most
10 billion is seconds-since-epoch (multiplied by 1000), subject to the
source NaN range check on the resulting date. -/
theorem c1_castToDate_amended :
    (∀ ms : Int, castToDate (.date ms) = .ok (.date ms)) ∧
    (∀ (s : String) (t : Int), jsDateParse s = some t → t.natAbs ≤ maxDateMs →
      castToDate (.str s) = .ok (.date t)) ∧
    (∀ s : String, jsDateParse s = none →
      castToDate (.str s) = .error ("Invalid date string: " ++ sqS ++ s ++ sqS)) ∧
    (∀ n : Int, 10000000000 < n → n.natAbs ≤ maxDateMs →
      castToDate (.num n) = .ok (.date n)) ∧
    (∀ n : Int, n ≤ 10000000000 → (n * 1000).natAbs ≤ maxDateMs →
      castToDate (.num n) = .ok (.date (n * 1000))) := by
  refine ⟨fun ms => rfl, ?_, ?_, ?_, ?_⟩
  · intro s t hp hr
    simp [castToDate, hp, hr]
  · intro s hp
    simp [castToDate, hp]
  · intro n hn hr
    simp [castToDate, hn, hr]
  · intro n hn hr
    have hn2 : ¬(n > 10000000000) := by omega
    simp [castToDate, hn2, hr]

/-- C1 witness: the amended theorem applied at a parseable date string, at a
number strictly above the boundary, and at a number below it. -/
theorem c1_castToDate_amended_witness :
    castToDate (.str "2024-01-02") = .ok (.date 1704153600000) ∧
    castToDate (.num 20000000000) = .ok (.date 20000000000) ∧
    castToDate (.num 5) = .ok (.date 5000) :=
  ⟨c1_castToDate_amended.2.1 "2024-01-02" 1704153600000 (by rfl) (by decide),
   c1_castToDate_amended.2.2.2.1 20000000000 (by decide) (by decide),
   c1_castToDate_amended.2.2.2.2 5 (by decide) (by decide)⟩

/-- C5: validating the document with age "34" and active "yes" against the
schema declaring age number and active boolean yields the document with age
34 and active true, exactly two casts performed, and empty error and warning
lists (the report is valid). -/
theorem c5_scenarioA_casts :
    validateDocument scenarioADoc scenarioASchema =
      { isValid := true
        document := .obj (.cons "age" (.num 34) (.cons "active" (.boolean true) .nil))
        errors := []
        warnings := []
        typeCastingCount := 2 } := rfl

/-- The first component of a flattened entry is the prefixed key, whatever
the value is. -/
theorem flattenEntry_fst (pfx k : String) (v : JsValue) :
    (flattenEntry pfx k v).1 = if pfx == "" then k else pfx ++ "." ++ k := by
  cases v <;> rfl

/-- The flattened keys of an entry list are exactly the keys under the
prefix rule. -/
theorem flattenFields_keys : ∀ (fields : JsObj) (pfx : String),
    ((fields.entries.map fun e => flattenEntry pfx e.1 e.2).map Prod.fst) =
      fields.keys.map (fun k => if pfx == "" then k else pfx ++ "." ++ k)
  | .nil, _ => rfl
  | .cons n v r, pfx => by
    simp [JsObj.entries, JsObj.keys, flattenEntry_fst, flattenFields_keys r pfx]

/-- The flattened keys of a document are exactly its top-level keys under
the prefix rule. -/
theorem flattenObject_keys (fields : JsObj) (pfx : String) :
    (flattenObject (.obj fields) pfx).map Prod.fst =
      fields.keys.map fun k => if pfx == "" then k else pfx ++ "." ++ k :=
  flattenFields_keys fields pfx

/-- C3 counterexample: for the scenario document the row emitter flattens
only the top level — the emitted INSERT column list is exactly the single
column tags, while the claimed recursive flattening would require the
schema path tags[].name (column tags_array_name), which never appears. -/
theorem c3_counterexample_row_emission :
    ((flattenObject scenarioDDoc).map fun e => cleanField e.1) = ["tags"] ∧
    cleanField "tags[].name" = "tags_array_name" ∧
    ¬ ("tags_array_name" ∈ (flattenObject scenarioDDoc).map fun e => cleanField e.1) := by
  refine ⟨rfl, rfl, ?_⟩
  decide

/-- C3 amended: row emission does not flatten recursively with the schema
path rules; `flattenObject` walks only the top level of each document
(its column list is exactly the cleaned top-level keys, so schema columns
with no corresponding key are omitted rather than padded with NULL), and
nested composites are serialized to JSON text under their top-level key.
For the scenario document the inferred schema does contain the recursive
path tags[].name and the DDL its tags_array_name column, but the emitted
INSERT carries the single column tags with the JSON literal. -/
theorem c3_amended_toplevel_row_emission :
    (∀ (fields : JsObj) (pfx : String),
      (flattenObject (.obj fields) pfx).map Prod.fst =
        fields.keys.map fun k => if pfx == "" then k else pfx ++ "." ++ k) ∧
    (analyzeFieldTypes [scenarioDDoc]).map Prod.fst = ["tags", "tags[].name"] ∧
    generateCreateTableSQL "tags_coll" (analyzeFieldTypes [scenarioDDoc]) =
      "-- Schema for collection: tags_coll\nCREATE TABLE IF NOT EXISTS `tags_coll` (\n" ++
        "  `_id` VARCHAR(24) PRIMARY KEY,\n  `tags` JSON NOT NULL,\n" ++
        "  `tags_array_name` TEXT NOT NULL\n);\n\n" ∧
    generateInsertSQL "tags_coll" [scenarioDDoc] (analyzeFieldTypes [scenarioDDoc]) =
      "-- Data for collection: tags_coll\nINSERT INTO `tags_coll` (`tags`) VALUES (" ++
        sqS ++ "[\x7b\"name\":\"a\"\x7d,\x7b\"name\":\"b\"\x7d]" ++ sqS ++ ");\n\n" := by
  exact ⟨flattenObject_keys, rfl, rfl, rfl⟩

/-- The batching loop emits nothing for an empty document list. -/
theorem importBatchesF_nil {α : Type} (fuel bs : Nat) (f : List α → Bool) :
    importBatchesF fuel bs f ([] : List α) = [] := by
  cases fuel <;> rfl

/-- One iteration of the batching loop on a non-empty document list. -/
theorem importBatchesF_step {α : Type} (fuel bs : Nat) (f : List α → Bool) (docs : List α)
    (hd : docs ≠ []) :
    importBatchesF (fuel + 1) bs f docs =
      (BulkOp.bulkInsert (docs.take bs) ::
        (if f (docs.take bs) then (docs.take bs).map BulkOp.insertOne else [])) ++
        importBatchesF fuel bs f (docs.drop bs) := by
  cases docs with
  | nil => exact absurd rfl hd
  | cons d r => rfl

/-- C8: for 2500 documents at the default batch size 1000 the import loop
submits exactly three bulk operations, carrying the first 1000, the next
1000 and the final 500 documents in that order; whichever batches the
bulk-failure oracle fails are retried document by document immediately after
their own bulk submission (in particular, failing only the middle batch
retries only its 1000 documents), and every other batch remains a single
bulk operation. -/
theorem c8_import_batching {α : Type} (docs : List α) (bulkFails : List α → Bool)
    (h2500 : docs.length = 2500) :
    (docs.take 1000).length = 1000 ∧
    ((docs.drop 1000).take 1000).length = 1000 ∧
    (docs.drop 2000).length = 500 ∧
    importCollectionBatches bulkFails docs =
      (BulkOp.bulkInsert (docs.take 1000) ::
        (if bulkFails (docs.take 1000) then (docs.take 1000).map BulkOp.insertOne else [])) ++
      ((BulkOp.bulkInsert ((docs.drop 1000).take 1000) ::
        (if bulkFails ((docs.drop 1000).take 1000) then
          ((docs.drop 1000).take 1000).map BulkOp.insertOne else [])) ++
      (BulkOp.bulkInsert (docs.drop 2000) ::
        (if bulkFails (docs.drop 2000) then (docs.drop 2000).map BulkOp.insertOne
         else []))) := by
  have l1 : (docs.take 1000).length = 1000 := by simp [h2500]
  have l2 : ((docs.drop 1000).take 1000).length = 1000 := by simp [h2500]
  have l3 : (docs.drop 2000).length = 500 := by simp [h2500]
  refine ⟨l1, l2, l3, ?_⟩
  have e1 : docs ≠ [] := by
    intro h
    subst h
    simp at h2500
  have e2 : docs.drop 1000 ≠ [] := by
    intro h
    have := congrArg List.length h
    simp [h2500] at this
  have e3 : docs.drop 2000 ≠ [] := by
    intro h
    have := congrArg List.length h
    simp [h2500] at this
  show importBatchesF docs.length 1000 bulkFails docs = _
  rw [h2500]
  rw [show (2500 : Nat) = 2499 + 1 from rfl, importBatchesF_step _ _ _ _ e1]
  rw [show (2499 : Nat) = 2498 + 1 from rfl, importBatchesF_step _ _ _ _ e2]
  rw [show (2498 : Nat) = 2497 + 1 from rfl]
  rw [List.drop_drop]
  rw [show (1000 + 1000 : Nat) = 2000 from rfl]
  rw [importBatchesF_step _ _ _ _ e3]
  rw [List.drop_drop, show (1000 + 2000 : Nat) = 3000 from rfl]
  have hnil : docs.drop 3000 = [] := by
    apply List.eq_nil_of_length_eq_zero
    simp [h2500]
  rw [hnil, importBatchesF_nil]
  have ht3 : (docs.drop 2000).take 1000 = docs.drop 2000 := by
    apply List.take_of_length_le
    omega
  rw [ht3]
  simp

/-- C8 witness: the theorem applied to 2500 concrete documents with an
oracle failing the batch that starts at document 1000 (the middle one). -/
theorem c8_import_batching_witness :
    ((List.range 2500).take 1000).length = 1000 ∧
    ((List.range 2500).drop 2000).length = 500 :=
  ⟨(c8_import_batching (List.range 2500) (fun b => decide (b.headD 0 = 1000))
      (by simp)).1,
   (c8_import_batching (List.range 2500) (fun b => decide (b.headD 0 = 1000))
      (by simp)).2.2.1⟩

theorem ErrExt.refl (st : VState) : ErrExt st st := ⟨[], by simp, by simp⟩

theorem ErrExt.chain {a b c : VState} (h1 : ErrExt a b) (h2 : ErrExt b c) : ErrExt a c := by
  obtain ⟨e1, hb, he1⟩ := h1
  obtain ⟨e2, hc, he2⟩ := h2
  refine ⟨e1 ++ e2, by simp [hc, hb], ?_⟩
  intro e he
  rcases List.mem_append.mp he with h | h
  · exact he1 e h
  · exact he2 e h

theorem ErrExt.push (st : VState) (p : String) :
    ErrExt st { st with errors := st.errors ++ [missingFieldMsg p] } :=
  ⟨[missingFieldMsg p], rfl, by simp⟩

theorem ErrExt.same {st st1 : VState} (h : st1.errors = st.errors) : ErrExt st st1 :=
  ⟨[], by simp [h], by simp⟩

/-- Fold invariant preservation. -/
theorem foldl_inv {σ β : Type _} (P : σ → Prop) (step : σ → β → σ)
    (hstep : ∀ s b, P s → P (step s b)) :
    ∀ (l : List β) (s : σ), P s → P (l.foldl step s)
  | [], _, h => h
  | b :: r, s, h => foldl_inv P step hstep r (step s b) (hstep s b h)

/-- The casting stage touches neither errors nor warnings. -/
theorem castStage_errors (v : JsValue) (t : TypeTag) (p : String) (st : VState) :
    (castStage v t p st).2.2.errors = st.errors ∧
    (castStage v t p st).2.2.warnings = st.warnings := by
  simp only [castStage]
  split
  · split <;> exact ⟨rfl, rfl⟩
  · exact ⟨rfl, rfl⟩

/-- The warning stage does not touch errors. -/
theorem warnStage_errors (p : String) (ft et : TypeTag) (st : VState) :
    (warnStage p ft et st).errors = st.errors := by
  unfold warnStage
  split
  · split <;> rfl
  · rfl

/-- The nested loop only extends errors with missing-field messages, as long
as the recursive call does. -/
theorem nestedLoop_errExt
    (recur : JsValue → FieldSchema → String → VState → JsValue × Bool × VState)
    (hrec : ∀ v fs p st, ErrExt st (recur v fs p st).2.2)
    (entries : List (String × FieldSchema)) (fieldPath : String)
    (init : JsValue × Bool × VState) :
    ErrExt init.2.2 (nestedLoop recur entries fieldPath init).2.2 := by
  unfold nestedLoop
  refine foldl_inv (fun acc => ErrExt init.2.2 acc.2.2) _ ?_ entries init (ErrExt.refl _)
  intro s e hs
  dsimp only
  split
  · split
    · exact hs.chain (hrec _ _ _ _)
    · exact hs
  · exact hs

/-- The array stage only extends errors with missing-field messages, as long
as the recursive call does. -/
theorem arrayStage_errExt
    (recur : JsValue → FieldSchema → String → VState → JsValue × Bool × VState)
    (hrec : ∀ v fs p st, ErrExt st (recur v fs p st).2.2)
    (aet : Option TypeTag) (ft : TypeTag) (fieldPath : String)
    (acc0 : JsValue × Bool × VState) :
    ErrExt acc0.2.2 (arrayStage recur aet ft fieldPath acc0).2.2 := by
  unfold arrayStage
  split
  · split
    · refine foldl_inv
        (fun (acc : List JsValue × Nat × Bool × VState) => ErrExt acc0.2.2 acc.2.2.2)
        _ ?_ _ _ (ErrExt.refl _)
      intro s it hs
      exact hs.chain (hrec _ _ _ _)
    · exact ErrExt.refl _
  · exact ErrExt.refl _

/-- Composition: error extension passes through the array stage. -/
theorem errExt_arrayStage {st : VState}
    (recur : JsValue → FieldSchema → String → VState → JsValue × Bool × VState)
    (hrec : ∀ v fs p st, ErrExt st (recur v fs p st).2.2)
    (aet : Option TypeTag) (ft : TypeTag) (fieldPath : String)
    (acc0 : JsValue × Bool × VState) (h0 : ErrExt st acc0.2.2) :
    ErrExt st (arrayStage recur aet ft fieldPath acc0).2.2 :=
  h0.chain (arrayStage_errExt recur hrec aet ft fieldPath acc0)

/-- Composition: error extension passes through the nested loop. -/
theorem errExt_nestedLoop {st : VState}
    (recur : JsValue → FieldSchema → String → VState → JsValue × Bool × VState)
    (hrec : ∀ v fs p st, ErrExt st (recur v fs p st).2.2)
    (entries : List (String × FieldSchema)) (fieldPath : String)
    (init : JsValue × Bool × VState) (h0 : ErrExt st init.2.2) :
    ErrExt st (nestedLoop recur entries fieldPath init).2.2 :=
  h0.chain (nestedLoop_errExt recur hrec entries fieldPath init)

/-- `validateFieldF` only extends errors, and only with
missing-required-field messages. -/
theorem validateFieldF_errExt : ∀ (fuel : Nat) (v : JsValue) (fs : FieldSchema)
    (p : String) (st : VState), ErrExt st (validateFieldF fuel v fs p st).2.2 := by
  intro fuel
  induction fuel with
  | zero => intro v fs p st; exact ErrExt.refl st
  | succ fuel ih =>
    intro v fs p st
    rw [validateFieldF]
    split
    · unfold nullStage
      split
      · exact ErrExt.push st p
      · exact ErrExt.refl st
    · apply errExt_arrayStage _ ih
      split
      · apply errExt_nestedLoop _ ih
        exact ErrExt.same (by rw [warnStage_errors, (castStage_errors v fs.type p st).1])
      · exact ErrExt.same (by rw [warnStage_errors, (castStage_errors v fs.type p st).1])

/-- The wrapper inherits the error-extension property. -/
theorem validateField_errExt (v : JsValue) (fs : FieldSchema) (p : String) (st : VState) :
    ErrExt st (validateField v fs p st).2.2 :=
  validateFieldF_errExt _ v fs p st

/-- The document loop only extends errors with missing-field messages. -/
theorem docFieldStep_errExt (acc : JsValue × VState) (e : String × FieldSchema) :
    ErrExt acc.2 (docFieldStep acc e).2 := by
  obtain ⟨dv, dst⟩ := acc
  simp only [docFieldStep]
  split
  · split
    · exact validateField_errExt _ _ _ _
    · split
      · exact ErrExt.push _ _
      · exact ErrExt.refl _
  · split
    · exact ErrExt.push _ _
    · exact ErrExt.refl _

/-- C10: for every document and schema the validation report satisfies
isValid exactly when the error list is empty, and every recorded error is a
missing-required-field error — warnings and performed casts alone never make
a document invalid. -/
theorem c10_isValid_iff_no_errors :
    ∀ (doc : JsValue) (schema : CollSchema),
      ((validateDocument doc schema).isValid = true ↔
        (validateDocument doc schema).errors = []) ∧
      ∀ e ∈ (validateDocument doc schema).errors, ∃ p, e = missingFieldMsg p := by
  intro doc schema
  have hfold : ErrExt {}
      (schema.fields.entries.foldl docFieldStep (jsonRoundTrip doc, ({} : VState))).2 := by
    refine foldl_inv (fun (acc : JsValue × VState) => ErrExt {} acc.2) _ ?_ _ _ (ErrExt.refl _)
    intro s e hs
    exact hs.chain (docFieldStep_errExt s e)
  constructor
  · show (schema.fields.entries.foldl docFieldStep
        (jsonRoundTrip doc, ({} : VState))).2.errors.isEmpty = true ↔
      (schema.fields.entries.foldl docFieldStep
        (jsonRoundTrip doc, ({} : VState))).2.errors = []
    exact List.isEmpty_iff
  · intro e he
    obtain ⟨extra, hex, hform⟩ := hfold
    have : (validateDocument doc schema).errors =
        (schema.fields.entries.foldl docFieldStep (jsonRoundTrip doc, ({} : VState))).2.errors :=
      rfl
    rw [this, hex] at he
    exact hform e (by simpa using he)

/-- C10 witness: the theorem applied to a document missing a required field
with zero observed nulls — the recorded error has the missing-field form. -/
theorem c10_isValid_iff_no_errors_witness :
    ∃ p, missingFieldMsg "a" = missingFieldMsg p :=
  (c10_isValid_iff_no_errors (JsValue.obj .nil)
    ⟨.cons "a" (FieldSchema.mk .number true (some 0) .nil none) .nil⟩).2
    (missingFieldMsg "a") (by decide)

/-- `==` on values is `beqVal`. -/
theorem beq_jsvalue (a b : JsValue) : (a == b) = beqVal a b := rfl

/-- A failing uncaught coercion implies the input was neither null nor
undefined (those return successfully before any conversion). -/
theorem castToTypeRaw_error_not_null {v : JsValue} {t : TypeTag} {msg : String}
    (h : castToTypeRaw v t = .error msg) : isNullOrUndef v = false := by
  cases v
  case null => exact absurd h (by simp [castToTypeRaw])
  case undef => exact absurd h (by simp [castToTypeRaw])
  all_goals rfl

/-- A failing uncaught coercion implies the observed type differed from the
target (a matching type returns successfully). -/
theorem castToTypeRaw_error_type_ne {v : JsValue} {t : TypeTag} {msg : String}
    (h : castToTypeRaw v t = .error msg) : (getValueType v == t) = false := by
  cases v
  case null => exact absurd h (by simp [castToTypeRaw])
  case undef => exact absurd h (by simp [castToTypeRaw])
  all_goals
    simp only [castToTypeRaw] at h
    split at h
    next => simp at h
    next hc => simpa using hc

/-- A failing uncaught coercion only happens for the four fallible targets:
number, boolean, date, objectId (string, array and object conversions are
total, and the remaining tags hit the default arm). -/
theorem castToTypeRaw_error_target {v : JsValue} {t : TypeTag} {msg : String}
    (h : castToTypeRaw v t = .error msg) :
    t = .number ∨ t = .boolean ∨ t = .date ∨ t = .objectId := by
  cases v
  case null => exact absurd h (by simp [castToTypeRaw])
  case undef => exact absurd h (by simp [castToTypeRaw])
  all_goals
    simp only [castToTypeRaw] at h
    split at h
    next => simp at h
    next => cases t <;> simp_all

/-- The catch of `castToType` returns the original value on a conversion
error. -/
theorem castToType_of_error {v : JsValue} {t : TypeTag} {msg : String} (p : String)
    (h : castToTypeRaw v t = .error msg) : castToType v t p = v := by
  simp [castToType, h]

/-- The array stage without a declared element type is the identity on the
value and state. -/
theorem arrayStage_none
    (recur : JsValue → FieldSchema → String → VState → JsValue × Bool × VState)
    (ft : TypeTag) (p : String) (acc0 : JsValue × Bool × VState) :
    arrayStage recur none ft p acc0 = (acc0.1, acc0.2.1, acc0.2.2) := by
  obtain ⟨v, b, st⟩ := acc0
  cases v <;> rfl

/-- C6: a per-field coercion failure is non-fatal and atomic.  Whenever the
uncaught coercion body fails for the (value, declared-type) pair of a
well-formed field schema, `validateField` returns the original uncoerced
value with no cast counted, appends exactly one warning string, appends no
error, and returns normally — so the per-field loop of `validateDocument`
proceeds to the remaining fields. -/
theorem c6_coercion_failure_nonfatal :
    ∀ (value : JsValue) (fs : FieldSchema) (fieldPath : String) (st : VState) (msg : String),
      WFSchema fs → castToTypeRaw value fs.type = .error msg →
      validateField value fs fieldPath st =
        (value, false,
          { st with warnings := st.warnings ++
              [mismatchCastFailedMsg fieldPath (getValueType value) fs.type] }) := by
  intro value fs fieldPath st msg hwf hraw
  obtain ⟨t, req, nc, nf, aet⟩ := fs
  obtain ⟨hnf0, haet0, _⟩ := hwf
  have htarget := castToTypeRaw_error_target hraw
  have hnull := castToTypeRaw_error_not_null hraw
  have htne := castToTypeRaw_error_type_ne hraw
  have hnf : nf = FieldMap.nil := by
    rcases hnf0 with h | h
    · exact h
    · subst h
      simp only [FieldSchema.type] at htarget
      rcases htarget with h | h | h | h <;> cases h
  have haet : aet = none := by
    rcases haet0 with h | h
    · exact h
    · subst h
      simp only [FieldSchema.type] at htarget
      rcases htarget with h | h | h | h <;> cases h
  subst hnf
  subst haet
  rw [show (FieldSchema.mk t req nc .nil none).type = t from rfl] at hraw htne ⊢
  have hcast : castStage value t fieldPath st = (value, false, st) := by
    have hct : castToType value t fieldPath = value := castToType_of_error fieldPath hraw
    simp only [castStage, IMPORT_OPTIONS, htne, Bool.not_false, Bool.and_true, hct,
      beq_jsvalue, beqVal_refl, Bool.not_true, Bool.false_eq_true, if_false, if_true]
  show validateFieldF (0 + 1) value (FieldSchema.mk t req nc .nil none) fieldPath st = _
  rw [validateFieldF]
  simp only [hnull, Bool.false_eq_true, if_false,
    show (FieldSchema.mk t req nc .nil none).type = t from rfl,
    show (FieldSchema.mk t req nc .nil none).nestedFields = FieldMap.nil from rfl,
    show (FieldSchema.mk t req nc .nil none).arrayElementType = none from rfl,
    hcast, FieldMap.entries, nestedLoop, List.foldl, warnStage, htne,
    Bool.not_false, if_true, IMPORT_OPTIONS]
  rw [arrayStage_none]
  simp only [ite_self]

/-- C6 witness: the theorem applied to the string "abc" failing numeric
coercion against a well-formed number-typed leaf schema. -/
theorem c6_coercion_failure_nonfatal_witness :
    validateField (.str "abc") (FieldSchema.mk .number false none .nil none) "f" {} =
      (.str "abc", false,
        { warnings := [mismatchCastFailedMsg "f" .string .number] }) :=
  c6_coercion_failure_nonfatal (.str "abc") (FieldSchema.mk .number false none .nil none)
    "f" {} ("Cannot convert " ++ sqS ++ "abc" ++ sqS ++ " to number")
    ⟨Or.inl rfl, Or.inl rfl, trivial⟩ (by rfl)

/-- The foldl arg-max of the source reduce dominates the seed and every
member, and is the seed or a member (ties go to the later key, but every
result maximizes the measure). -/
theorem foldl_argmax {α : Type} (f : α → Nat) :
    ∀ (l : List α) (a : α),
      f a ≤ f (l.foldl (fun x y => if f x > f y then x else y) a) ∧
      (∀ b ∈ l, f b ≤ f (l.foldl (fun x y => if f x > f y then x else y) a)) ∧
      (l.foldl (fun x y => if f x > f y then x else y) a = a ∨
        l.foldl (fun x y => if f x > f y then x else y) a ∈ l) := by
  intro l
  induction l with
  | nil => intro a; exact ⟨le_rfl, by simp, Or.inl rfl⟩
  | cons b r ih =>
    intro a
    have hstep : f a ≤ f (if f a > f b then a else b) ∧
        f b ≤ f (if f a > f b then a else b) := by
      split
      next h => exact ⟨le_rfl, Nat.le_of_lt h⟩
      next h => exact ⟨Nat.le_of_not_lt h, le_rfl⟩
    obtain ⟨h1, h2, h3⟩ := ih (if f a > f b then a else b)
    refine ⟨le_trans hstep.1 h1, ?_, ?_⟩
    · intro c hc
      rcases List.mem_cons.mp hc with rfl | hc
      · exact le_trans hstep.2 h1
      · exact h2 c hc
    · rcases h3 with h | h
      · by_cases hab : f a > f b
        · left
          rw [List.foldl_cons, h, if_pos hab]
        · right
          rw [List.foldl_cons, h, if_neg hab]
          exact List.mem_cons_self b r
      · right
        exact List.mem_cons_of_mem b h

/-- A tag absent from the table counts zero. -/
theorem countOf_eq_zero {tbl : TypeCounts} {t : TypeTag} (h : ¬ t ∈ tbl.map Prod.fst) :
    countOf tbl t = 0 := by
  unfold countOf
  cases hf : tbl.find? (fun e => e.1 == t) with
  | none => rfl
  | some e =>
    exfalso
    have heq := List.find?_some hf
    have hmem := List.mem_of_find?_eq_some hf
    exact h (List.mem_map.mpr ⟨e, hmem, by simpa using heq⟩)

/-- The most common type of a nonempty table maximizes the count and occurs
among its keys. -/
theorem mostCommon_spec (tbl : TypeCounts) (hne : tbl ≠ []) :
    (∀ t, countOf tbl t ≤ countOf tbl (mostCommonType tbl)) ∧
    mostCommonType tbl ∈ tbl.map Prod.fst := by
  cases tbl with
  | nil => exact absurd rfl hne
  | cons e rest =>
    obtain ⟨h1, h2, h3⟩ := foldl_argmax (countOf (e :: rest)) (rest.map Prod.fst) e.1
    have hmc : mostCommonType (e :: rest) =
        (rest.map Prod.fst).foldl
          (fun x y => if countOf (e :: rest) x > countOf (e :: rest) y then x else y)
          e.1 := rfl
    constructor
    · intro t
      by_cases hm : t ∈ (e :: rest).map Prod.fst
      · rw [List.map_cons] at hm
        rcases List.mem_cons.mp hm with rfl | ht2
        · rw [hmc]; exact h1
        · rw [hmc]; exact h2 t ht2
      · rw [countOf_eq_zero hm]
        exact Nat.zero_le _
    · rw [hmc]
      rcases h3 with h | h
      · rw [h]
        simp
      · simp only [List.map_cons]
        exact List.mem_cons_of_mem e.1 h

/-- The foldl max of the source `Math.max` call dominates the seed and every
member and is the seed or a member. -/
theorem foldl_max_spec : ∀ (l : List Nat) (i : Nat),
    i ≤ l.foldl max i ∧ (∀ x ∈ l, x ≤ l.foldl max i) ∧
    (l.foldl max i = i ∨ l.foldl max i ∈ l) := by
  intro l
  induction l with
  | nil => intro i; exact ⟨le_rfl, by simp, Or.inl rfl⟩
  | cons b r ih =>
    intro i
    obtain ⟨h1, h2, h3⟩ := ih (max i b)
    refine ⟨le_trans (Nat.le_max_left _ _) h1, ?_, ?_⟩
    · intro x hx
      rcases List.mem_cons.mp hx with rfl | hx
      · exact le_trans (Nat.le_max_right _ _) h1
      · exact h2 x hx
    · rcases h3 with h | h
      · rcases Nat.le_total i b with hib | hib
        · right
          rw [List.foldl_cons, h, Nat.max_eq_right hib]
          exact List.mem_cons_self b r
        · left
          rw [List.foldl_cons, h, Nat.max_eq_left hib]
      · right
        exact List.mem_cons_of_mem b h

/-- A bump produces a nonempty table and preserves positive counts. -/
theorem bumpCount_good (tbl : TypeCounts) (t : TypeTag) (h : ∀ e ∈ tbl, 0 < e.2) :
    GoodTbl (bumpCount tbl t) := by
  induction tbl with
  | nil => exact ⟨by simp [bumpCount], by simp [bumpCount]⟩
  | cons e r ih =>
    simp only [bumpCount]
    split
    · refine ⟨by simp, ?_⟩
      intro x hx
      rcases List.mem_cons.mp hx with rfl | hx
      · have := h e (List.mem_cons_self e r)
        omega
      · exact h x (List.mem_cons_of_mem e hx)
    · have hr := ih fun x hx => h x (List.mem_cons_of_mem e hx)
      refine ⟨by simp, ?_⟩
      intro x hx
      rcases List.mem_cons.mp hx with rfl | hx
      · exact h x (List.mem_cons_self x r)
      · exact hr.2 x hx

/-- `addCount` preserves the accumulator invariant. -/
theorem goodAcc_addCount {s : SchemaAcc} (hs : GoodAcc s) (p : String) (t : TypeTag) :
    GoodAcc (addCount s p t) := by
  induction s with
  | nil =>
    intro e he
    simp only [addCount] at he
    rcases List.mem_singleton.mp he with rfl
    exact bumpCount_good [] t (by simp)
  | cons e0 r ih =>
    intro e he
    simp only [addCount] at he
    revert he
    split
    · intro he
      rcases List.mem_cons.mp he with rfl | he
      · exact bumpCount_good e0.2 t fun x hx => (hs e0 (List.mem_cons_self e0 r)).2 x hx
      · exact hs e (List.mem_cons_of_mem e0 he)
    · intro he
      rcases List.mem_cons.mp he with rfl | he
      · exact hs e (List.mem_cons_self e r)
      · exact ih (fun x hx => hs x (List.mem_cons_of_mem e0 hx)) e he

mutual
/-- The walk preserves the accumulator invariant (dispatch). -/
theorem analyzeObject_good : ∀ (v : JsValue) (s : SchemaAcc) (pfx : String),
    GoodAcc s → GoodAcc (analyzeObject v s pfx)
  | .obj fields, s, pfx, h => analyzeFields_good fields s pfx h
  | .arr items, s, pfx, h => analyzeIdxItems_good items 0 s pfx h
  | .null, _, _, h => h
  | .undef, _, _, h => h
  | .str _, _, _, h => h
  | .num _, _, _, h => h
  | .boolean _, _, _, h => h
  | .date _, _, _, h => h
  | .objectId _, _, _, h => h
/-- The walk preserves the accumulator invariant (object keys). -/
theorem analyzeFields_good : ∀ (fields : JsObj) (s : SchemaAcc) (pfx : String),
    GoodAcc s → GoodAcc (analyzeFields fields s pfx)
  | .nil, _, _, h => h
  | .cons key value rest, s, pfx, h =>
    analyzeFields_good rest _ pfx
      (analyzeValueRec_good value _ _ (goodAcc_addCount h _ _))
/-- The walk preserves the accumulator invariant (descent). -/
theorem analyzeValueRec_good : ∀ (value : JsValue) (s : SchemaAcc) (fullKey : String),
    GoodAcc s → GoodAcc (analyzeValueRec value s fullKey)
  | .obj fields, s, k, h => analyzeFields_good fields s k h
  | .arr .nil, _, _, h => h
  | .arr (.cons v0 r), s, k, h => analyzeArrItems_good (.cons v0 r) s (k ++ "[]") h
  | .null, _, _, h => h
  | .undef, _, _, h => h
  | .str _, _, _, h => h
  | .num _, _, _, h => h
  | .boolean _, _, _, h => h
  | .date _, _, _, h => h
  | .objectId _, _, _, h => h
/-- The walk preserves the accumulator invariant (array items). -/
theorem analyzeArrItems_good : ∀ (items : JsArr) (s : SchemaAcc) (p : String),
    GoodAcc s → GoodAcc (analyzeArrItems items s p)
  | .nil, _, _, h => h
  | .cons (.obj f) rest, s, p, h =>
    analyzeArrItems_good rest _ p (analyzeFields_good f s p h)
  | .cons (.arr inner) rest, s, p, h =>
    analyzeArrItems_good rest _ p (analyzeIdxItems_good inner 0 s p h)
  | .cons .null rest, s, p, h => analyzeArrItems_good rest _ p h
  | .cons .undef rest, s, p, h => analyzeArrItems_good rest _ p h
  | .cons (.str _) rest, s, p, h => analyzeArrItems_good rest _ p h
  | .cons (.num _) rest, s, p, h => analyzeArrItems_good rest _ p h
  | .cons (.boolean _) rest, s, p, h => analyzeArrItems_good rest _ p h
  | .cons (.date _) rest, s, p, h => analyzeArrItems_good rest _ p h
  | .cons (.objectId _) rest, s, p, h => analyzeArrItems_good rest _ p h
/-- The walk preserves the accumulator invariant (array index keys). -/
theorem analyzeIdxItems_good : ∀ (items : JsArr) (i : Nat) (s : SchemaAcc) (pfx : String),
    GoodAcc s → GoodAcc (analyzeIdxItems items i s pfx)
  | .nil, _, _, _, h => h
  | .cons value rest, i, s, pfx, h =>
    analyzeIdxItems_good rest (i + 1) _ pfx
      (analyzeValueRec_good value _ _ (goodAcc_addCount h _ _))
end

/-- Every table of the counting phase is good. -/
theorem analyzeRaw_good (documents : List JsValue) : GoodAcc (analyzeRaw documents) := by
  unfold analyzeRaw
  refine foldl_inv GoodAcc _ ?_ documents [] (by intro e he; cases he)
  intro s d hs
  exact analyzeObject_good d s "" hs

/-- C7: schema inference reduces each observed path frequency table so that
the declared type is an arg-max of the table (no tag was observed more
often, and the declared tag was itself observed), nullable holds exactly
when null was observed at the path, and sampleCount is the maximum observed
frequency (it dominates every observed count and is attained). -/
theorem c7_inference_reduction :
    ∀ (documents : List JsValue) (p : String) (info : FieldInfo),
      (p, info) ∈ analyzeFieldTypes documents →
      ∃ tbl, (p, tbl) ∈ analyzeRaw documents ∧ info = reduceTypes tbl ∧ tbl ≠ [] ∧
        (∀ t, countOf tbl t ≤ countOf tbl info.type) ∧
        info.type ∈ tbl.map Prod.fst ∧
        (info.nullable = true ↔ 0 < countOf tbl TypeTag.null) ∧
        (∀ c ∈ tbl.map Prod.snd, c ≤ info.samples) ∧
        info.samples ∈ tbl.map Prod.snd := by
  intro documents p info hmem
  unfold analyzeFieldTypes at hmem
  obtain ⟨e, hraw, heq⟩ := List.mem_map.mp hmem
  rw [Prod.ext_iff] at heq
  obtain ⟨hp, hinfo⟩ := heq
  have good := analyzeRaw_good documents e hraw
  subst hp
  subst hinfo
  refine ⟨e.2, hraw, rfl, good.1, ?_, ?_, ?_, ?_, ?_⟩
  · exact (mostCommon_spec e.2 good.1).1
  · exact (mostCommon_spec e.2 good.1).2
  · simp [reduceTypes]
  · intro c hc
    exact (foldl_max_spec (e.2.map Prod.snd) 0).2.1 c hc
  · rcases (foldl_max_spec (e.2.map Prod.snd) 0).2.2 with h0 | hm
    · exfalso
      cases htbl : e.2 with
      | nil => exact good.1 htbl
      | cons x xs =>
        have hx : x.2 ∈ e.2.map Prod.snd := by
          rw [htbl]
          simp
        have hle := (foldl_max_spec (e.2.map Prod.snd) 0).2.1 x.2 hx
        have hpos := good.2 x (by rw [htbl]; exact List.mem_cons_self x xs)
        omega
    · exact hm

/-- C7 witness: the theorem applied to four concrete documents observing a
number twice, a string once and null once at path a. -/
theorem c7_inference_reduction_witness :
    ∃ tbl, ("a", tbl) ∈ analyzeRaw
        [JsValue.obj (.cons "a" (.num 1) .nil), JsValue.obj (.cons "a" (.str "x") .nil),
          JsValue.obj (.cons "a" .null .nil), JsValue.obj (.cons "a" (.num 2) .nil)] ∧
      (⟨.number, true, 2⟩ : FieldInfo) = reduceTypes tbl ∧ tbl ≠ [] ∧
      (∀ t, countOf tbl t ≤ countOf tbl (FieldInfo.type ⟨.number, true, 2⟩)) ∧
      FieldInfo.type ⟨.number, true, 2⟩ ∈ tbl.map Prod.fst ∧
      (FieldInfo.nullable ⟨.number, true, 2⟩ = true ↔ 0 < countOf tbl TypeTag.null) ∧
      (∀ c ∈ tbl.map Prod.snd, c ≤ FieldInfo.samples ⟨.number, true, 2⟩) ∧
      FieldInfo.samples ⟨.number, true, 2⟩ ∈ tbl.map Prod.snd :=
  c7_inference_reduction
    [JsValue.obj (.cons "a" (.num 1) .nil), JsValue.obj (.cons "a" (.str "x") .nil),
      JsValue.obj (.cons "a" .null .nil), JsValue.obj (.cons "a" (.num 2) .nil)]
    "a" ⟨.number, true, 2⟩ (by decide)

namespace Mut

/-- Finding a key in a list extended on the right by a fresh entry. -/
theorem findEntry_key_append {l : List (Nat × HNode)} {x : Nat × HNode} {b : Nat}
    (hb : b ≠ x.1) :
    (l ++ [x]).find? (fun e => e.1 == b) = l.find? (fun e => e.1 == b) := by
  induction l with
  | nil =>
    show List.find? (fun e => e.1 == b) [x] = none
    rw [List.find?_cons_of_neg]
    · rfl
    · simp
      omega
  | cons e r ih =>
    show List.find? _ (e :: (r ++ [x])) = List.find? _ (e :: r)
    by_cases he : ((fun (y : Nat × HNode) => y.1 == b) e) = true
    · rw [@List.find?_cons_of_pos _ (fun y => y.1 == b) e (r ++ [x]) he,
        @List.find?_cons_of_pos _ (fun y => y.1 == b) e r he]
    · rw [@List.find?_cons_of_neg _ (fun y => y.1 == b) e (r ++ [x]) he,
        @List.find?_cons_of_neg _ (fun y => y.1 == b) e r he]
      exact ih

/-- Appending on the right when the left part does not contain the key. -/
theorem findEntry_append_right_of_none {α : Type} {p : α → Bool} {l1 : List α} (l2 : List α)
    (h : l1.find? p = none) : (l1 ++ l2).find? p = l2.find? p := by
  induction l1 with
  | nil => rfl
  | cons e r ih =>
    have he : ¬ p e = true := by
      have := List.find?_eq_none.mp h e (List.mem_cons_self e r)
      simpa using this
    have hr : r.find? p = none := by
      rw [List.find?_eq_none]
      intro x hx
      exact List.find?_eq_none.mp h x (List.mem_cons_of_mem e hx)
    show List.find? p (e :: (r ++ l2)) = _
    rw [@List.find?_cons_of_neg _ p e (r ++ l2) he]
    exact ih hr

/-- Finding a key after an in-place update at a different key. -/
theorem findEntry_updList_ne {l : List (Nat × HNode)} {a : Nat} {nd : HNode} {b : Nat}
    (hb : b ≠ a) :
    (updList l a nd).find? (fun e => e.1 == b) = l.find? (fun e => e.1 == b) := by
  induction l with
  | nil => rfl
  | cons e r ih =>
    have hstep : updList (e :: r) a nd =
        (if (e.1 == a) = true then (a, nd) else e) :: updList r a nd := rfl
    rw [hstep]
    by_cases hea : (e.1 == a) = true
    · rw [if_pos hea]
      have h1 : e.1 = a := by simpa using hea
      have hna : ¬ ((fun (y : Nat × HNode) => y.1 == b) (a, nd)) = true := by
        simp
        omega
      have hne : ¬ ((fun (y : Nat × HNode) => y.1 == b) e) = true := by
        simp [h1]
        omega
      rw [@List.find?_cons_of_neg _ (fun y => y.1 == b) (a, nd) (updList r a nd) hna,
        @List.find?_cons_of_neg _ (fun y => y.1 == b) e r hne]
      exact ih
    · rw [if_neg hea]
      by_cases heb : ((fun (y : Nat × HNode) => y.1 == b) e) = true
      · rw [@List.find?_cons_of_pos _ (fun y => y.1 == b) e (updList r a nd) heb,
          @List.find?_cons_of_pos _ (fun y => y.1 == b) e r heb]
      · rw [@List.find?_cons_of_neg _ (fun y => y.1 == b) e (updList r a nd) heb,
          @List.find?_cons_of_neg _ (fun y => y.1 == b) e r heb]
        exact ih

/-- Finding the updated key after an in-place update. -/
theorem findEntry_updList_self {l : List (Nat × HNode)} {a : Nat} {nd : HNode} :
    (updList l a nd).find? (fun e => e.1 == a) =
      (l.find? (fun e => e.1 == a)).map fun _ => (a, nd) := by
  induction l with
  | nil => rfl
  | cons e r ih =>
    have hstep : updList (e :: r) a nd =
        (if (e.1 == a) = true then (a, nd) else e) :: updList r a nd := rfl
    rw [hstep]
    by_cases hea : ((fun (y : Nat × HNode) => y.1 == a) e) = true
    · rw [if_pos hea]
      rw [@List.find?_cons_of_pos _ (fun y => y.1 == a) (a, nd) (updList r a nd)
          (show ((a, nd).1 == a) = true by simp),
        @List.find?_cons_of_pos _ (fun y => y.1 == a) e r hea]
      rfl
    · rw [if_neg hea]
      rw [@List.find?_cons_of_neg _ (fun y => y.1 == a) e (updList r a nd) hea,
        @List.find?_cons_of_neg _ (fun y => y.1 == a) e r hea]
      exact ih

/-- Lookup after allocation at a different address. -/
theorem lookup_alloc_ne (h : Heap) (nd : HNode) (b : Nat) (hb : b ≠ h.next) :
    lookup (alloc h nd).1 b = lookup h b := by
  unfold lookup alloc
  simp only
  rw [findEntry_key_append hb]

/-- Lookup at the allocated address of a well-formed store. -/
theorem lookup_alloc_self (h : Heap) (nd : HNode) (wf : WFHeap h) :
    lookup (alloc h nd).1 h.next = some nd := by
  unfold lookup alloc
  simp only
  have hnone : h.mem.find? (fun e => e.1 == h.next) = none := by
    rw [List.find?_eq_none]
    intro x hx
    have := wf x hx
    simp
    omega
  rw [findEntry_append_right_of_none _ hnone,
    @List.find?_cons_of_pos _ (fun y => y.1 == h.next) (h.next, nd) []
      (show ((h.next, nd).1 == h.next) = true by simp)]

/-- Lookup after an in-place write at a different address. -/
theorem lookup_writeAt_ne (h : Heap) (a : Nat) (nd : HNode) (b : Nat) (hb : b ≠ a) :
    lookup (writeAt h a nd) b = lookup h b := by
  unfold lookup writeAt
  simp only
  rw [findEntry_updList_ne hb]

/-- Lookup at the written address. -/
theorem lookup_writeAt_self (h : Heap) (a : Nat) (nd : HNode) :
    lookup (writeAt h a nd) a = (lookup h a).map fun _ => nd := by
  unfold lookup writeAt
  simp only
  rw [findEntry_updList_self]
  cases h.mem.find? (fun e => e.1 == a) <;> rfl

/-- Addresses at or past the counter are unallocated in a well-formed
store. -/
theorem lookup_ge_none {h : Heap} (wf : WFHeap h) {b : Nat} (hb : h.next ≤ b) :
    lookup h b = none := by
  unfold lookup
  have : h.mem.find? (fun e => e.1 == b) = none := by
    rw [List.find?_eq_none]
    intro x hx
    have := wf x hx
    simp
    omega
  rw [this]

theorem Evolve.rfl {n0 : Nat} {h : Heap} (inv : Inv n0 h) : Evolve n0 h h :=
  ⟨inv, fun _ _ => Eq.refl _, Nat.le_refl _⟩

theorem Evolve.trans {n0 : Nat} {h1 h2 h3 : Heap} (e12 : Evolve n0 h1 h2)
    (e23 : Evolve n0 h2 h3) : Evolve n0 h1 h3 :=
  ⟨e23.inv, fun a ha => (e23.low a ha).trans (e12.low a ha), Nat.le_trans e12.mono e23.mono⟩

/-- Allocation of a watermark-closed node preserves the invariant, touches
nothing below the watermark, and returns a reference at or above it. -/
theorem alloc_evolve {n0 : Nat} {h : Heap} {nd : HNode} (inv : Inv n0 h)
    (hnd : HNode.geRefs n0 nd) :
    Evolve n0 h (alloc h nd).1 ∧ HVal.geRefs n0 (alloc h nd).2 := by
  have hwf : WFHeap (alloc h nd).1 := by
    intro e he
    simp only [alloc] at he ⊢
    rcases List.mem_append.mp he with h1 | h1
    · exact Nat.lt_succ_of_lt (inv.wf e h1)
    · rcases List.mem_singleton.mp h1 with rfl
      exact Nat.lt_succ_self _
  refine ⟨⟨⟨hwf, ?_, Nat.le_trans inv.le (Nat.le_succ _)⟩, ?_, Nat.le_succ _⟩, inv.le⟩
  · intro b m hb hlook
    by_cases hbe : b = h.next
    · subst hbe
      rw [lookup_alloc_self h nd inv.wf] at hlook
      cases Option.some.inj hlook
      exact hnd
    · rw [lookup_alloc_ne h nd b hbe] at hlook
      exact inv.hc b m hb hlook
  · intro a ha
    exact lookup_alloc_ne h nd a (by have := inv.le; omega)

/-- Writing a watermark-closed node at an address at or above the watermark
preserves the invariant and touches nothing below it. -/
theorem writeAt_evolve {n0 : Nat} {h : Heap} {a : Nat} {nd : HNode} (inv : Inv n0 h)
    (ha : n0 ≤ a) (hnd : HNode.geRefs n0 nd) : Evolve n0 h (writeAt h a nd) := by
  have hwf : WFHeap (writeAt h a nd) := by
    intro e he
    simp only [writeAt, updList] at he ⊢
    obtain ⟨y, hy, hxy⟩ := List.mem_map.mp he
    have hyw := inv.wf y hy
    by_cases hya : (y.1 == a) = true
    · rw [if_pos hya] at hxy
      subst hxy
      have : y.1 = a := by simpa using hya
      simpa [this] using hyw
    · rw [if_neg hya] at hxy
      subst hxy
      exact hyw
  refine ⟨⟨hwf, ?_, inv.le⟩, ?_, Nat.le_refl _⟩
  · intro b m hb hlook
    by_cases hba : b = a
    · subst hba
      rw [lookup_writeAt_self] at hlook
      cases hl : lookup h b with
      | none => rw [hl] at hlook; cases hlook
      | some x =>
        rw [hl] at hlook
        cases Option.some.inj hlook
        exact hnd
    · rw [lookup_writeAt_ne h a nd b hba] at hlook
      exact inv.hc b m hb hlook
  · intro b hb
    exact lookup_writeAt_ne h a nd b (by omega)

mutual
/-- Allocating a pure tree preserves the invariant and returns a value with
references at or above the watermark. -/
theorem allocTree_evolve {n0 : Nat} : ∀ (h : Heap) (t : JsValue), Inv n0 h →
    Evolve n0 h (allocTree h t).1 ∧ HVal.geRefs n0 (allocTree h t).2
  | h, .null, inv => ⟨Evolve.rfl inv, trivial⟩
  | h, .undef, inv => ⟨Evolve.rfl inv, trivial⟩
  | h, .str _, inv => ⟨Evolve.rfl inv, trivial⟩
  | h, .num _, inv => ⟨Evolve.rfl inv, trivial⟩
  | h, .boolean _, inv => ⟨Evolve.rfl inv, trivial⟩
  | h, .date _, inv => ⟨Evolve.rfl inv, trivial⟩
  | h, .objectId _, inv => ⟨Evolve.rfl inv, trivial⟩
  | h, .arr items, inv => by
    obtain ⟨e1, hall⟩ := allocItems_evolve h items inv
    obtain ⟨e2, href⟩ := alloc_evolve e1.inv (show HNode.geRefs n0 (.arrN (allocItems h items).2) from hall)
    exact ⟨e1.trans e2, href⟩
  | h, .obj fields, inv => by
    obtain ⟨e1, hall⟩ := allocFields_evolve h fields inv
    obtain ⟨e2, href⟩ := alloc_evolve e1.inv (show HNode.geRefs n0 (.objN (allocFields h fields).2) from hall)
    exact ⟨e1.trans e2, href⟩
/-- Allocating the elements of an array literal. -/
theorem allocItems_evolve {n0 : Nat} : ∀ (h : Heap) (items : JsArr), Inv n0 h →
    Evolve n0 h (allocItems h items).1 ∧
      ∀ v ∈ (allocItems h items).2, HVal.geRefs n0 v
  | h, .nil, inv => ⟨Evolve.rfl inv, by intro v hv; cases hv⟩
  | h, .cons v rest, inv => by
    obtain ⟨e1, g1⟩ := allocTree_evolve h v inv
    obtain ⟨e2, g2⟩ := allocItems_evolve (allocTree h v).1 rest e1.inv
    refine ⟨e1.trans e2, ?_⟩
    intro w hw
    rcases List.mem_cons.mp hw with rfl | hw
    · exact g1
    · exact g2 w hw
/-- Allocating the members of an object literal. -/
theorem allocFields_evolve {n0 : Nat} : ∀ (h : Heap) (fields : JsObj), Inv n0 h →
    Evolve n0 h (allocFields h fields).1 ∧
      ∀ e ∈ (allocFields h fields).2, HVal.geRefs n0 e.2
  | h, .nil, inv => ⟨Evolve.rfl inv, by intro e he; cases he⟩
  | h, .cons n v rest, inv => by
    obtain ⟨e1, g1⟩ := allocTree_evolve h v inv
    obtain ⟨e2, g2⟩ := allocFields_evolve (allocTree h v).1 rest e1.inv
    refine ⟨e1.trans e2, ?_⟩
    intro w hw
    rcases List.mem_cons.mp hw with rfl | hw
    · exact g1
    · exact g2 w hw
end

/-- A one-element array wrapper allocation. -/
theorem allocWrapArr {n0 : Nat} {h : Heap} {v : HVal} (inv : Inv n0 h)
    (hv : HVal.geRefs n0 v) :
    Evolve n0 h (alloc h (.arrN [v])).1 ∧ HVal.geRefs n0 (alloc h (.arrN [v])).2 :=
  alloc_evolve inv (by intro x hx; rcases List.mem_singleton.mp hx with rfl; exact hv)

/-- A single-member object wrapper allocation. -/
theorem allocWrapObj {n0 : Nat} {h : Heap} {v : HVal} {k : String} (inv : Inv n0 h)
    (hv : HVal.geRefs n0 v) :
    Evolve n0 h (alloc h (.objN [(k, v)])).1 ∧ HVal.geRefs n0 (alloc h (.objN [(k, v)])).2 :=
  alloc_evolve inv (by intro x hx; rcases List.mem_singleton.mp hx with rfl; exact hv)

/-- The string conversion returns a primitive. -/
theorem castToStringH_geRefs {n0 : Nat} (fuel : Nat) (h : Heap) (v : HVal)
    {r : HVal} (hr : castToStringH fuel h v = .ok r) : HVal.geRefs n0 r := by
  cases v <;> simp only [castToStringH] at hr
  case ref a =>
    revert hr
    split
    · intro hr
      cases Except.ok.inj hr
      trivial
    · intro hr
      cases hr
  all_goals cases Except.ok.inj hr; trivial

/-- The number conversion returns a primitive. -/
theorem castToNumberH_geRefs {n0 : Nat} {v r : HVal} (hr : castToNumberH v = .ok r) :
    HVal.geRefs n0 r := by
  cases v <;> simp only [castToNumberH] at hr
  case str s =>
    revert hr
    split
    · intro hr
      cases Except.ok.inj hr
      trivial
    · intro hr
      cases hr
  case undef => cases hr
  case ref a => cases hr
  case null => cases hr
  case objectId x => cases hr
  all_goals cases Except.ok.inj hr; trivial

/-- The boolean conversion returns a primitive. -/
theorem castToBooleanH_geRefs {n0 : Nat} {v r : HVal} (hr : castToBooleanH v = .ok r) :
    HVal.geRefs n0 r := by
  cases v <;> simp only [castToBooleanH] at hr
  case str s =>
    revert hr
    split
    · intro hr
      cases Except.ok.inj hr
      trivial
    · split
      · intro hr
        cases Except.ok.inj hr
        trivial
      · intro hr
        cases hr
  case undef => cases hr
  case ref a => cases hr
  case null => cases hr
  case objectId x => cases hr
  case date ms => cases hr
  all_goals cases Except.ok.inj hr; trivial

/-- The date conversion returns a primitive. -/
theorem castToDateH_geRefs {n0 : Nat} {v r : HVal} (hr : castToDateH v = .ok r) :
    HVal.geRefs n0 r := by
  cases v <;> simp only [castToDateH] at hr
  case str s =>
    revert hr
    split
    · split
      · intro hr
        cases Except.ok.inj hr
        trivial
      · intro hr
        cases hr
    · intro hr
      cases hr
  case num n =>
    revert hr
    split
    all_goals split
    all_goals intro hr
    all_goals
      first
        | (cases Except.ok.inj hr; trivial)
        | cases hr
  case undef => cases hr
  case ref a => cases hr
  case null => cases hr
  case objectId x => cases hr
  case boolean b => cases hr
  all_goals cases Except.ok.inj hr; trivial

/-- The ObjectId conversion returns a primitive. -/
theorem castToObjectIdH_geRefs {n0 : Nat} {v r : HVal} (hr : castToObjectIdH v = .ok r) :
    HVal.geRefs n0 r := by
  cases v <;> simp only [castToObjectIdH] at hr
  case str s =>
    revert hr
    split
    · intro hr
      cases Except.ok.inj hr
      trivial
    · intro hr
      cases hr
  case undef => cases hr
  case ref a => cases hr
  case null => cases hr
  case num n => cases hr
  case boolean b => cases hr
  case date ms => cases hr
  all_goals cases Except.ok.inj hr; trivial

/-- `castToArrayH` preserves the invariant and returns a watermark-closed
value (it allocates, never writes). -/
theorem castToArrayH_evolve {n0 : Nat} {h : Heap} {v : HVal} (inv : Inv n0 h)
    (hv : HVal.geRefs n0 v) :
    Evolve n0 h (castToArrayH h v).1 ∧ HVal.geRefs n0 (castToArrayH h v).2 := by
  cases v <;> simp only [castToArrayH]
  case ref a =>
    split
    · exact ⟨Evolve.rfl inv, hv⟩
    · exact allocWrapArr inv hv
  case str s =>
    split
    · next items heq =>
      obtain ⟨e1, g1⟩ := @allocItems_evolve n0 h items inv
      obtain ⟨e2, g2⟩ := alloc_evolve e1.inv
        (show HNode.geRefs n0 (.arrN (allocItems h items).2) from g1)
      exact ⟨e1.trans e2, g2⟩
    all_goals exact allocWrapArr inv trivial
  all_goals exact allocWrapArr inv hv

/-- `castToObjectH` preserves the invariant and returns a watermark-closed
value. -/
theorem castToObjectH_evolve {n0 : Nat} {h : Heap} {v : HVal} (inv : Inv n0 h)
    (hv : HVal.geRefs n0 v) :
    Evolve n0 h (castToObjectH h v).1 ∧ HVal.geRefs n0 (castToObjectH h v).2 := by
  cases v <;> simp only [castToObjectH]
  case ref a =>
    split
    · exact ⟨Evolve.rfl inv, hv⟩
    · exact allocWrapObj inv hv
  case str s =>
    split
    · next fields heq =>
      obtain ⟨e1, g1⟩ := @allocFields_evolve n0 h fields inv
      obtain ⟨e2, g2⟩ := alloc_evolve e1.inv
        (show HNode.geRefs n0 (.objN (allocFields h fields).2) from g1)
      exact ⟨e1.trans e2, g2⟩
    · exact allocWrapObj inv trivial
  case date ms => exact ⟨Evolve.rfl inv, trivial⟩
  case objectId x => exact ⟨Evolve.rfl inv, trivial⟩
  all_goals exact allocWrapObj inv hv

/-- The uncaught cast body preserves the invariant and returns
watermark-closed values. -/
theorem castToTypeRawH_evolve {n0 : Nat} (fuel : Nat) (h : Heap) (v : HVal) (t : TypeTag)
    (inv : Inv n0 h) (hv : HVal.geRefs n0 v) :
    Evolve n0 h (castToTypeRawH fuel h v t).1 ∧
      ∀ r, (castToTypeRawH fuel h v t).2 = .ok r → HVal.geRefs n0 r := by
  cases v
  case null =>
    exact ⟨Evolve.rfl inv, fun r hr => by cases Except.ok.inj hr; trivial⟩
  case undef =>
    exact ⟨Evolve.rfl inv, fun r hr => by cases Except.ok.inj hr; trivial⟩
  all_goals
    simp only [castToTypeRawH]
    split
    · exact ⟨Evolve.rfl inv, fun r hr => by cases Except.ok.inj hr; exact hv⟩
    · split
      all_goals dsimp only
      all_goals
        first
          | exact ⟨Evolve.rfl inv, fun r hr => castToStringH_geRefs _ _ _ hr⟩
          | exact ⟨Evolve.rfl inv, fun r hr => castToNumberH_geRefs hr⟩
          | exact ⟨Evolve.rfl inv, fun r hr => castToBooleanH_geRefs hr⟩
          | exact ⟨Evolve.rfl inv, fun r hr => castToDateH_geRefs hr⟩
          | exact ⟨Evolve.rfl inv, fun r hr => castToObjectIdH_geRefs hr⟩
          | exact ⟨(castToArrayH_evolve inv hv).1,
              fun r hr => by cases Except.ok.inj hr; exact (castToArrayH_evolve inv hv).2⟩
          | exact ⟨(castToObjectH_evolve inv hv).1,
              fun r hr => by cases Except.ok.inj hr; exact (castToObjectH_evolve inv hv).2⟩
          | exact ⟨Evolve.rfl inv, fun r hr => by cases Except.ok.inj hr; exact hv⟩

/-- `castToTypeH` preserves the invariant and returns a watermark-closed
value (the catch returns the original). -/
theorem castToTypeH_evolve {n0 : Nat} (fuel : Nat) (h : Heap) (v : HVal) (t : TypeTag)
    (inv : Inv n0 h) (hv : HVal.geRefs n0 v) :
    Evolve n0 h (castToTypeH fuel h v t).1 ∧ HVal.geRefs n0 (castToTypeH fuel h v t).2 := by
  obtain ⟨he, hok⟩ := castToTypeRawH_evolve fuel h v t inv hv
  unfold castToTypeH
  split
  next h1 r heq =>
    constructor
    · have : (castToTypeRawH fuel h v t).1 = h1 := by rw [heq]
      rw [← this]
      exact he
    · exact hok r (by rw [heq])
  next h1 msg heq =>
    constructor
    · have : (castToTypeRawH fuel h v t).1 = h1 := by rw [heq]
      rw [← this]
      exact he
    · exact hv

/-- Reading a member of a watermark-closed object yields a watermark-closed
value. -/
theorem getFieldH_geRefs {n0 : Nat} {h : Heap} {v : HVal} {k : String} (inv : Inv n0 h)
    (hv : HVal.geRefs n0 v) : HVal.geRefs n0 (getFieldH h v k) := by
  cases v <;> simp only [getFieldH]
  case ref a =>
    split
    · next fields hlook =>
      split
      · next e hf =>
        have hm := List.mem_of_find?_eq_some hf
        have hnode := inv.hc a _ hv hlook
        exact hnode e hm
      · trivial
    · trivial
  all_goals trivial

/-- `setAssoc` preserves watermark closure of an entry list. -/
theorem setAssoc_geRefs {n0 : Nat} {l : List (String × HVal)} {k : String} {v : HVal}
    (hl : ∀ e ∈ l, HVal.geRefs n0 e.2) (hv : HVal.geRefs n0 v) :
    ∀ e ∈ setAssoc l k v, HVal.geRefs n0 e.2 := by
  induction l with
  | nil =>
    intro e he
    rcases List.mem_singleton.mp he with rfl
    exact hv
  | cons x r ih =>
    intro e he
    simp only [setAssoc] at he
    revert he
    split
    · intro he
      rcases List.mem_cons.mp he with rfl | he
      · exact hv
      · exact hl e (List.mem_cons_of_mem x he)
    · intro he
      rcases List.mem_cons.mp he with rfl | he
      · exact hl e (List.mem_cons_self e r)
      · exact ih (fun y hy => hl y (List.mem_cons_of_mem x hy)) e he

/-- Member write through a watermark-closed reference preserves the
invariant and touches nothing below the watermark. -/
theorem setFieldH_evolve {n0 : Nat} {h : Heap} {target : HVal} {k : String} {v : HVal}
    (inv : Inv n0 h) (ht : HVal.geRefs n0 target) (hv : HVal.geRefs n0 v) :
    Evolve n0 h (setFieldH h target k v) := by
  cases target <;> simp only [setFieldH]
  case ref a =>
    split
    · next fields hlook =>
      have ha : n0 ≤ a := ht
      have hfields := inv.hc a _ ha hlook
      exact writeAt_evolve inv ha (setAssoc_geRefs hfields hv)
    · exact Evolve.rfl inv
  all_goals exact Evolve.rfl inv

/-- Fold invariant preservation, member-aware. -/
theorem foldl_inv_mem {σ β : Type _} (P : σ → Prop) (step : σ → β → σ) :
    ∀ (l : List β), (∀ s b, b ∈ l → P s → P (step s b)) → ∀ s, P s → P (l.foldl step s)
  | [], _, _, h => h
  | b :: r, hstep, s, h =>
    foldl_inv_mem P step r (fun s1 b1 hb1 => hstep s1 b1 (List.mem_cons_of_mem b hb1))
      (step s b) (hstep s b (List.mem_cons_self b r) h)


/-- The casting stage of the heap validator preserves the invariant and
returns a watermark-closed value. -/
theorem castStageH_evolve {n0 : Nat} (fuel : Nat) (h : Heap) (v : HVal) (t : TypeTag)
    (st : VState) (inv : Inv n0 h) (hv : HVal.geRefs n0 v) :
    Evolve n0 h (castStageH fuel h v t st).1 ∧
      HVal.geRefs n0 (castStageH fuel h v t st).2.1 := by
  unfold castStageH
  split
  · have hc := castToTypeH_evolve fuel h v t inv hv
    dsimp only
    split
    · exact ⟨hc.1, hc.2⟩
    · exact ⟨hc.1, hc.2⟩
  · exact ⟨Evolve.rfl inv, hv⟩

/-- The nested-object loop of the heap validator preserves the invariant,
given that the recursive call does. -/
theorem nestedLoopH_frame {n0 : Nat}
    (recur : Heap → HVal → FieldSchema → String → VState → Heap × HVal × Bool × VState)
    (hrec : ∀ h v fs p st, Inv n0 h → HVal.geRefs n0 v →
      Evolve n0 h (recur h v fs p st).1 ∧ HVal.geRefs n0 (recur h v fs p st).2.1)
    (entries : List (String × FieldSchema)) (fv : HVal) (fieldPath : String)
    (init : Heap × Bool × VState) (hinv : Inv n0 init.1) (hfv : HVal.geRefs n0 fv) :
    Evolve n0 init.1 (nestedLoopH recur entries fv fieldPath init).1 := by
  unfold nestedLoopH
  refine foldl_inv (fun (acc : Heap × Bool × VState) => Evolve n0 init.1 acc.1) _ ?_
    entries init (Evolve.rfl hinv)
  intro s e hs
  dsimp only
  split
  · have hget : HVal.geRefs n0 (getFieldH s.1 fv e.1) := getFieldH_geRefs hs.inv hfv
    obtain ⟨he, hr⟩ := hrec s.1 (getFieldH s.1 fv e.1) e.2 (fieldPath ++ "." ++ e.1)
      s.2.2 hs.inv hget
    have hset : Evolve n0 (recur s.1 (getFieldH s.1 fv e.1) e.2 (fieldPath ++ "." ++ e.1)
        s.2.2).1 (setFieldH (recur s.1 (getFieldH s.1 fv e.1) e.2 (fieldPath ++ "." ++ e.1)
        s.2.2).1 fv e.1 (recur s.1 (getFieldH s.1 fv e.1) e.2 (fieldPath ++ "." ++ e.1)
        s.2.2).2.1) := setFieldH_evolve he.inv hfv hr
    exact hs.trans (he.trans hset)
  · exact hs

/-- The array-element loop of the heap validator preserves the invariant and
returns a watermark-closed value, given that the recursive call does. -/
theorem arrayStageH_frame {n0 : Nat}
    (recur : Heap → HVal → FieldSchema → String → VState → Heap × HVal × Bool × VState)
    (hrec : ∀ h v fs p st, Inv n0 h → HVal.geRefs n0 v →
      Evolve n0 h (recur h v fs p st).1 ∧ HVal.geRefs n0 (recur h v fs p st).2.1)
    (aet : Option TypeTag) (ft : TypeTag) (fv : HVal) (fieldPath : String)
    (init : Heap × Bool × VState) (hinv : Inv n0 init.1) (hfv : HVal.geRefs n0 fv) :
    Evolve n0 init.1 (arrayStageH recur aet ft fv fieldPath init).1 ∧
      HVal.geRefs n0 (arrayStageH recur aet ft fv fieldPath init).2.1 := by
  unfold arrayStageH
  split
  · next elemT =>
    split
    · split
      · next a =>
        split
        · next items hlook =>
          have hitems : ∀ x ∈ items, HVal.geRefs n0 x := hinv.hc a (.arrN items) hfv hlook
          have hstep : ∀ (s : Heap × List HVal × Nat × Bool × VState) (item : HVal),
              item ∈ items →
              (Evolve n0 init.1 s.1 ∧ ∀ w ∈ s.2.1, HVal.geRefs n0 w) →
              (Evolve n0 init.1 (recur s.1 item (leafSchema elemT)
                  (fieldPath ++ "[" ++ toString s.2.2.1 ++ "]") s.2.2.2.2).1 ∧
                ∀ w ∈ (recur s.1 item (leafSchema elemT)
                    (fieldPath ++ "[" ++ toString s.2.2.1 ++ "]") s.2.2.2.2).2.1 :: s.2.1,
                  HVal.geRefs n0 w) := by
            intro s item hitem hs
            obtain ⟨he, hr⟩ := hrec s.1 item (leafSchema elemT)
              (fieldPath ++ "[" ++ toString s.2.2.1 ++ "]") s.2.2.2.2 hs.1.inv
              (hitems item hitem)
            refine ⟨hs.1.trans he, ?_⟩
            intro w hw
            rcases List.mem_cons.mp hw with rfl | hw2
            · exact hr
            · exact hs.2 w hw2
          have hfold := foldl_inv_mem
            (fun (acc : Heap × List HVal × Nat × Bool × VState) =>
              Evolve n0 init.1 acc.1 ∧ ∀ w ∈ acc.2.1, HVal.geRefs n0 w)
            (fun (acc : Heap × List HVal × Nat × Bool × VState) item =>
              let ir := recur acc.1 item (leafSchema elemT)
                (fieldPath ++ "[" ++ toString acc.2.2.1 ++ "]") acc.2.2.2.2
              (ir.1, ir.2.1 :: acc.2.1, acc.2.2.1 + 1, acc.2.2.2.1 || ir.2.2.1, ir.2.2.2))
            items hstep (init.1, [], 0, init.2.1, init.2.2)
            ⟨Evolve.rfl hinv, fun w hw => absurd hw (List.not_mem_nil w)⟩
          obtain ⟨hfe, hfg⟩ := hfold
          dsimp only
          have hnode : HNode.geRefs n0
              (HNode.arrN (items.foldl
                (fun (acc : Heap × List HVal × Nat × Bool × VState) item =>
                  let ir := recur acc.1 item (leafSchema elemT)
                    (fieldPath ++ "[" ++ toString acc.2.2.1 ++ "]") acc.2.2.2.2
                  (ir.1, ir.2.1 :: acc.2.1, acc.2.2.1 + 1, acc.2.2.2.1 || ir.2.2.1, ir.2.2.2))
                (init.1, [], 0, init.2.1, init.2.2)).2.1.reverse) := by
            intro w hw
            exact hfg w (List.mem_reverse.mp hw)
          have hae := alloc_evolve hfe.inv hnode
          exact ⟨hfe.trans hae.1, hae.2⟩
        all_goals exact ⟨Evolve.rfl hinv, hfv⟩
      all_goals exact ⟨Evolve.rfl hinv, hfv⟩
    · exact ⟨Evolve.rfl hinv, hfv⟩
  · exact ⟨Evolve.rfl hinv, hfv⟩

/-- The heap validator only allocates fresh nodes and only writes at or
above the watermark: any store satisfying the invariant evolves to a store
that agrees with it below the watermark, and the returned value is
watermark-closed. -/
theorem validateFieldH_frame {n0 : Nat} : ∀ (fuel : Nat) (h : Heap) (v : HVal)
    (fs : FieldSchema) (p : String) (st : VState), Inv n0 h → HVal.geRefs n0 v →
    Evolve n0 h (validateFieldH fuel h v fs p st).1 ∧
      HVal.geRefs n0 (validateFieldH fuel h v fs p st).2.1 := by
  intro fuel
  induction fuel with
  | zero =>
    intro h v fs p st inv hv
    exact ⟨Evolve.rfl inv, hv⟩
  | succ fuel ih =>
    intro h v fs p st inv hv
    by_cases hnull : (v == HVal.null || v == HVal.undef) = true
    · simp only [validateFieldH, hnull, if_true]
      exact ⟨Evolve.rfl inv, hv⟩
    · simp only [validateFieldH, hnull, if_false]
      have hc := castStageH_evolve fuel h v fs.type st inv hv
      generalize hC : castStageH fuel h v fs.type st = C at hc ⊢
      obtain ⟨h1, fv1, cp1, st1⟩ := C
      obtain ⟨hCe, hCg⟩ := hc
      dsimp only at hCe hCg ⊢
      by_cases hobj : (getValueTypeH h1 fv1 == TypeTag.object) = true
      · rw [if_pos hobj]
        have hnest := nestedLoopH_frame (validateFieldH fuel) ih fs.nestedFields.entries
          fv1 p (h1, cp1, warnStage p (getValueTypeH h1 fv1) fs.type st1) hCe.inv hCg
        have harr := arrayStageH_frame (validateFieldH fuel) ih fs.arrayElementType
          (getValueTypeH h1 fv1) fv1 p
          (nestedLoopH (validateFieldH fuel) fs.nestedFields.entries fv1 p
            (h1, cp1, warnStage p (getValueTypeH h1 fv1) fs.type st1))
          hnest.inv hCg
        exact ⟨hCe.trans (hnest.trans harr.1), harr.2⟩
      · rw [if_neg hobj]
        have harr := arrayStageH_frame (validateFieldH fuel) ih fs.arrayElementType
          (getValueTypeH h1 fv1) fv1 p
          (h1, cp1, warnStage p (getValueTypeH h1 fv1) fs.type st1) hCe.inv hCg
        exact ⟨hCe.trans harr.1, harr.2⟩

/-- One schema-field step of the document loop preserves the invariant. -/
theorem docFieldStepH_evolve {n0 : Nat} (fuel : Nat) (vd : HVal)
    (acc : Heap × VState) (e : String × FieldSchema) (hinv : Inv n0 acc.1)
    (hvd : HVal.geRefs n0 vd) :
    Evolve n0 acc.1 (docFieldStepH fuel vd acc e).1 := by
  unfold docFieldStepH
  split
  · dsimp only
    have hget : HVal.geRefs n0 (getFieldH acc.1 vd e.1) := getFieldH_geRefs hinv hvd
    have hr := validateFieldH_frame fuel acc.1 (getFieldH acc.1 vd e.1) e.2 e.1 acc.2
      hinv hget
    have hset : Evolve n0 (validateFieldH fuel acc.1 (getFieldH acc.1 vd e.1) e.2 e.1
          acc.2).1
        (setFieldH (validateFieldH fuel acc.1 (getFieldH acc.1 vd e.1) e.2 e.1 acc.2).1
          vd e.1
          (validateFieldH fuel acc.1 (getFieldH acc.1 vd e.1) e.2 e.1 acc.2).2.1) :=
      setFieldH_evolve hr.1.inv hvd hr.2
    exact hr.1.trans hset
  · split
    · exact Evolve.rfl hinv
    · exact Evolve.rfl hinv

/-- The deep copy at the head of the heap validator only allocates: the
store evolves and the copy is watermark-closed. -/
theorem jsonRoundTripH_evolve {n0 : Nat} {fuel : Nat} {h h1 : Heap} {doc vd : HVal}
    (inv : Inv n0 h) (hJ : jsonRoundTripH fuel h doc = some (h1, vd)) :
    Evolve n0 h h1 ∧ HVal.geRefs n0 vd := by
  unfold jsonRoundTripH at hJ
  split at hJ
  · next t hrt =>
    have ha := allocTree_evolve h (jsonRoundTrip t) inv
    have hEq : allocTree h (jsonRoundTrip t) = (h1, vd) := Option.some.inj hJ
    rw [hEq] at ha
    exact ha
  · exact Option.noConfusion hJ

/-- The whole heap validator evolves the store: the invariant is preserved
and every address below the watermark is untouched. -/
theorem validateDocumentH_frame {n0 : Nat} (fuel : Nat) (h : Heap) (doc : HVal)
    (schema : CollSchema) (inv : Inv n0 h) :
    Evolve n0 h (validateDocumentH fuel h doc schema).1 := by
  rcases hJ : jsonRoundTripH fuel h doc with _ | ⟨h1, vd⟩
  · unfold validateDocumentH
    rw [hJ]
    exact Evolve.rfl inv
  · obtain ⟨hE, hvd⟩ := jsonRoundTripH_evolve inv hJ
    unfold validateDocumentH
    rw [hJ]
    dsimp only
    have hstep : ∀ (s : Heap × VState) (e : String × FieldSchema),
        Evolve n0 h s.1 → Evolve n0 h (docFieldStepH fuel vd s e).1 :=
      fun s e hs => hs.trans (docFieldStepH_evolve fuel vd s e hs.inv hvd)
    exact foldl_inv (fun (acc : Heap × VState) => Evolve n0 h acc.1)
      (docFieldStepH fuel vd) hstep schema.fields.entries (h1, {}) hE

end Mut

/-- C4: the validator never mutates its input. In the store model, where the
input document is a reference into the mutable store, validating any document
against any schema leaves every address allocated before the call (every
address below the allocation counter) with exactly the node it held before:
the deep copy made by the JSON round trip is allocated fresh, and all
coercions and write-backs land in the copy. -/
theorem c4_validator_no_input_mutation (fuel : Nat) (h : Mut.Heap) (doc : Mut.HVal)
    (schema : CollSchema) (hwf : Mut.WFHeap h) (a : Nat) (ha : a < h.next) :
    Mut.lookup (Mut.validateDocumentH fuel h doc schema).1 a = Mut.lookup h a := by
  have inv : Mut.Inv h.next h := by
    refine ⟨hwf, ?_, Nat.le_refl _⟩
    intro b nd hb hlk
    rw [Mut.lookup_ge_none hwf hb] at hlk
    exact Option.noConfusion hlk
  exact (Mut.validateDocumentH_frame fuel h doc schema inv).low a ha

/-- C4 witness: a concrete one-node store holding the document
`\x7b age: "34" \x7d`; after validation against the scenario-A schema the
node at address 0 is unchanged. -/
theorem c4_validator_no_input_mutation_witness :
    Mut.WFHeap ⟨1, [(0, Mut.HNode.objN [("age", Mut.HVal.str "34")])]⟩ ∧
      (0 : Nat) < (Mut.Heap.mk 1 [(0, Mut.HNode.objN [("age", Mut.HVal.str "34")])]).next ∧
      Mut.lookup (Mut.validateDocumentH 5 ⟨1, [(0, Mut.HNode.objN [("age", Mut.HVal.str "34")])]⟩
          (Mut.HVal.ref 0) scenarioASchema).1 0 =
        Mut.lookup ⟨1, [(0, Mut.HNode.objN [("age", Mut.HVal.str "34")])]⟩ 0 :=
  ⟨by unfold Mut.WFHeap; decide, by decide,
    c4_validator_no_input_mutation 5 ⟨1, [(0, Mut.HNode.objN [("age", Mut.HVal.str "34")])]⟩
      (Mut.HVal.ref 0) scenarioASchema (by unfold Mut.WFHeap; decide) 0 (by decide)⟩
